import Mathlib

/-!
Verification development for the evaluation-orchestration engine
(`src/eval/results.rs`, `src/eval/runner.rs`, `src/kubernetes/pod_manager.rs`).

Modelling conventions (shallow embedding of the Rust source):
* Rust `String`/`&str` values that are only stored or compared are `String`;
  text that the parsers scan character-by-character is `List Char`.
  The sentinel markers and all parser patterns are ASCII, so char-level
  occurrence coincides with Rust's byte-level `str::find` on valid UTF-8.
* `f64` scores are modelled as `ℚ`; all scores computed by the code are exact
  decimal fractions `passed/total*100`, never NaN, so `partial_cmp.unwrap`
  never panics and the ordering agrees with the rational ordering.
* `DateTime<Utc>` timestamps are opaque `ℕ` values threaded as a `now`
  parameter wherever the code calls `Utc::now()`.
* `u32`/`u64` counters are `ℕ` (the code only ever adds small counts).
-/

namespace AnodeEvals

/-! ## Character-list string utilities (models of Rust `str` methods) -/

/-- Model of `str::starts_with` on character lists. -/
def beginsWith : List Char → List Char → Bool
  | [], _ => true
  | _ :: _, [] => false
  | p :: ps, c :: cs => p == c && beginsWith ps cs

/-- Model of `str::find(pattern)`: index of the first occurrence of `pat`
as a contiguous sublist, `none` if there is no occurrence. -/
def findSub (pat : List Char) : List Char → Option Nat
  | [] => if beginsWith pat [] then some 0 else none
  | c :: rest =>
    if beginsWith pat (c :: rest) then some 0
    else (findSub pat rest).map (· + 1)

/-- Model of `str::contains(pattern)`. -/
def containsSub (pat l : List Char) : Bool :=
  (findSub pat l).isSome

/-- Model of `str::strip_prefix`: `some` of the remainder when `pat` leads
`l`, otherwise `none`. -/
def removeLead (pat l : List Char) : Option (List Char) :=
  if beginsWith pat l then some (l.drop pat.length) else none

/-- Model of `s.split(pat).next().unwrap()`: the part of `l` before the
first occurrence of `pat` (all of `l` when `pat` does not occur). -/
def takeUntilPat (pat l : List Char) : List Char :=
  match findSub pat l with
  | some i => l.take i
  | none => l

/-- Model of `str::trim` (whitespace stripped from both ends; the markers
and test names involved are ASCII, where `Char.isWhitespace` agrees with
Rust's `char::is_whitespace`). -/
def trimWs (l : List Char) : List Char :=
  (((l.dropWhile Char.isWhitespace).reverse.dropWhile Char.isWhitespace).reverse)

/-- Model of `str::lines`: split on `'\n'`, drop one trailing empty piece
(a trailing newline does not produce an empty final line), and strip one
trailing `'\r'` from each line. -/
def linesOf (l : List Char) : List (List Char) :=
  let ps := l.splitOn '\n'
  let ps := if ps.getLast? = some [] then ps.dropLast else ps
  ps.map (fun p => if p.getLast? = some '\r' then p.dropLast else p)

/-! ## `src/eval/results.rs`: result data model -/

/-- `TestCaseResult` (results.rs): result of a single test case. -/
structure TestCaseResult where
  name : List Char
  passed : Bool
  duration_ms : Option Nat
  error : Option (List Char)
  stdout : Option (List Char)
  deriving DecidableEq, Inhabited

/-- `TestSuiteResult` (results.rs): result of running the eval test suite. -/
structure TestSuiteResult where
  total : Nat
  passed : Nat
  failed : Nat
  skipped : Nat
  tests : List TestCaseResult
  duration_ms : Nat
  raw_output : List Char
  deriving DecidableEq, Inhabited

/-- `TestSuiteResult::pass_rate` (results.rs:41): `passed/total*100`, and
`0.0` when `total == 0`. -/
def TestSuiteResult.pass_rate (t : TestSuiteResult) : ℚ :=
  if t.total = 0 then 0 else ((t.passed : ℚ) / (t.total : ℚ)) * 100

/-- `RunStatus` (results.rs:128). -/
inductive RunStatus where
  | Pending | Running | Completed | Failed | Timeout | Cancelled
  deriving DecidableEq, Inhabited

/-- `EvalRunResult` (results.rs:52): one record per (prompt, agent) run. -/
structure EvalRunResult where
  run_id : List Char
  prompt_id : List Char
  agent_id : List Char
  agent_tool : List Char
  model : List Char
  started_at : Nat
  completed_at : Option Nat
  duration_seconds : Option Nat
  status : RunStatus
  test_results : Option TestSuiteResult
  score : Option ℚ
  agent_logs : Option (List Char)
  error : Option String
  deriving DecidableEq, Inhabited

/-- `EvalRunResult::new` (results.rs:82); `now` stands for `Utc::now()`. -/
def EvalRunResult.new (run_id prompt_id agent_id agent_tool model : List Char)
    (now : Nat) : EvalRunResult :=
  { run_id := run_id
    prompt_id := prompt_id
    agent_id := agent_id
    agent_tool := agent_tool
    model := model
    started_at := now
    completed_at := none
    duration_seconds := none
    status := RunStatus.Pending
    test_results := none
    score := none
    agent_logs := none
    error := none }

/-- `EvalRunResult::complete_with_results` (results.rs:100). Truncated
subtraction models `(completed_at - started_at).num_seconds().max(0)`. -/
def EvalRunResult.complete_with_results (r : EvalRunResult)
    (test_results : TestSuiteResult) (now : Nat) : EvalRunResult :=
  { r with
    completed_at := some now
    duration_seconds := some (now - r.started_at)
    score := some test_results.pass_rate
    test_results := some test_results
    status := RunStatus.Completed }

/-- `EvalRunResult::fail_with_error` (results.rs:112). -/
def EvalRunResult.fail_with_error (r : EvalRunResult) (error : String)
    (now : Nat) : EvalRunResult :=
  { r with
    completed_at := some now
    duration_seconds := some (now - r.started_at)
    error := some error
    status := RunStatus.Failed
    score := some 0 }

/-- `result.agent_logs = Some(logs)` as performed in `run_single_eval`
(runner.rs:206-216). -/
def EvalRunResult.setAgentLogs (r : EvalRunResult) (logs : List Char) :
    EvalRunResult :=
  { r with agent_logs := some logs }

/-- The result states reachable by the mutating operations the program
performs on an `EvalRunResult`: creation (results.rs:82), the dispatcher's
`result.status = RunStatus::Running` on the freshly created (hence
`Pending`) record (runner.rs:161), best-effort log attachment, and the two
terminal transitions (results.rs:100, results.rs:112). -/
inductive ReachableRun : EvalRunResult → Prop where
  | fresh (rid pid aid tool mdl : List Char) (now : Nat) :
      ReachableRun (EvalRunResult.new rid pid aid tool mdl now)
  | dispatchRunning (r : EvalRunResult) :
      ReachableRun r → r.status = RunStatus.Pending →
      ReachableRun { r with status := RunStatus.Running }
  | attachLogs (r : EvalRunResult) (logs : List Char) :
      ReachableRun r → ReachableRun (r.setAgentLogs logs)
  | completes (r : EvalRunResult) (t : TestSuiteResult) (now : Nat) :
      ReachableRun r → ReachableRun (r.complete_with_results t now)
  | fails (r : EvalRunResult) (e : String) (now : Nat) :
      ReachableRun r → ReachableRun (r.fail_with_error e now)

/-! ## `src/eval/runner.rs`: log extraction (`extract_test_output`) -/

/-- `pat` occurs in `l` starting at index `i`. -/
def occursAt (pat l : List Char) (i : Nat) : Prop :=
  beginsWith pat (l.drop i) = true

instance occursAt.decidable (pat l : List Char) (i : Nat) :
    Decidable (occursAt pat l i) :=
  inferInstanceAs (Decidable (_ = true))

/-- The literal `"TEST_OUTPUT_START"` marker (runner.rs:273). -/
def startMarker : List Char := "TEST_OUTPUT_START".data

/-- The literal `"TEST_OUTPUT_END"` marker (runner.rs:274). -/
def endMarker : List Char := "TEST_OUTPUT_END".data

/-- `extract_test_output` (runner.rs:272-283): the trimmed substring
between the first start marker and the first end marker after it. -/
def extract_test_output (logs : List Char) : Option (List Char) :=
  match findSub startMarker logs with
  | some start_idx =>
      let after_start := logs.drop (start_idx + startMarker.length)
      match findSub endMarker after_start with
      | some end_idx => some (trimWs (after_start.take end_idx))
      | none => none
  | none => none

/-! ## `src/eval/runner.rs`: harness parsers

`serde_json::from_str` is an external crate; the parsers are parameterised
by a line decoder `fromStr : List Char → Option Json` standing for it. -/

/-- A parsed JSON value (the fragment the cargo parser consumes). -/
inductive Json where
  | jnull
  | jbool (b : Bool)
  | jnum (q : ℚ)
  | jstr (s : List Char)
  | jarr (elems : List Json)
  | jobj (fields : List (List Char × Json))
  deriving Inhabited

/-- `serde_json::Value::get(key)` on an object. -/
def Json.get (j : Json) (k : List Char) : Option Json :=
  match j with
  | .jobj fields => (fields.find? (fun kv => kv.1 == k)).map (·.2)
  | _ => none

/-- `Value::as_str`. -/
def Json.asStr : Json → Option (List Char)
  | .jstr s => some s
  | _ => none

/-- `Value::as_f64` (numbers modelled as `ℚ`). -/
def Json.asNum : Json → Option ℚ
  | .jnum q => some q
  | _ => none

/-- `(t * 1000.0) as u64` (runner.rs:324): truncation toward zero,
negative values clamped to `0`. -/
def durMs (t : ℚ) : Nat := (⌊t * 1000⌋).toNat

/-- First whitespace-separated token: `s.split_whitespace().next()`. -/
def firstToken (l : List Char) : Option (List Char) :=
  let t := (l.dropWhile Char.isWhitespace).takeWhile (fun c => !c.isWhitespace)
  if t.isEmpty then none else some t

/-- `findSub` agrees with the least-occurrence specification. -/
theorem findSub_eq_none_iff (pat l : List Char) :
    findSub pat l = none ↔ ∀ i, ¬ occursAt pat l i := by
  induction l with
  | nil =>
    simp only [findSub, occursAt]
    constructor
    · intro h i
      rcases h' : beginsWith pat [] with _ | _
      · simpa [List.drop_nil] using h'
      · simp [h'] at h
    · intro h
      have h0 := h 0
      simp only [List.drop_nil] at h0
      simp [Bool.eq_false_iff.mpr (fun hc => h0 hc)]
  | cons c rest ih =>
    simp only [findSub]
    rcases hb : beginsWith pat (c :: rest) with _ | _
    · simp only [Bool.false_eq_true, if_false, Option.map_eq_none']
      rw [ih]
      constructor
      · intro h i
        cases i with
        | zero => simp [occursAt, hb]
        | succ j =>
          intro hc
          exact h j (by simpa [occursAt, List.drop_succ_cons] using hc)
      · intro h j hc
        exact h (j + 1) (by simpa [occursAt, List.drop_succ_cons] using hc)
    · simp only [if_true]
      constructor
      · intro h; cases h
      · intro h
        exact absurd (by simpa [occursAt] using hb) (h 0)

/-- `findSub` returns `some i` exactly when `i` is the least occurrence
index of the pattern. -/
theorem findSub_eq_some_iff (pat l : List Char) (i : Nat) :
    findSub pat l = some i ↔
      occursAt pat l i ∧ ∀ j, j < i → ¬ occursAt pat l j := by
  induction l generalizing i with
  | nil =>
    simp only [findSub]
    rcases hb : beginsWith pat [] with _ | _
    · simp only [Bool.false_eq_true, if_false]
      constructor
      · intro h; cases h
      · rintro ⟨h1, _⟩
        simp only [occursAt, List.drop_nil] at h1
        rw [h1] at hb; cases hb
    · simp only [if_true, Option.some.injEq]
      constructor
      · rintro rfl
        exact ⟨by simpa [occursAt] using hb, by omega⟩
      · rintro ⟨_, hmin⟩
        by_contra hne
        have h0 : 0 < i := Nat.pos_of_ne_zero (fun h => hne h.symm)
        exact hmin 0 h0 (by simpa [occursAt] using hb)
  | cons c rest ih =>
    simp only [findSub]
    rcases hb : beginsWith pat (c :: rest) with _ | _
    · simp only [Bool.false_eq_true, if_false, Option.map_eq_some']
      constructor
      · rintro ⟨j, hj, rfl⟩
        rcases (ih j).mp hj with ⟨h1, hmin⟩
        refine ⟨by simpa [occursAt, List.drop_succ_cons] using h1, ?_⟩
        intro k hk
        cases k with
        | zero => simp [occursAt, hb]
        | succ k' =>
          intro hc
          exact hmin k' (by omega)
            (by simpa [occursAt, List.drop_succ_cons] using hc)
      · rintro ⟨h1, hmin⟩
        cases i with
        | zero =>
          exact absurd (by simpa [occursAt] using h1)
            (by simp [hb])
        | succ i' =>
          refine ⟨i', (ih i').mpr ⟨?_, ?_⟩, rfl⟩
          · simpa [occursAt, List.drop_succ_cons] using h1
          · intro j hj hc
            exact hmin (j + 1) (by omega)
              (by simpa [occursAt, List.drop_succ_cons] using hc)
    · simp only [if_true, Option.some.injEq]
      constructor
      · rintro rfl
        exact ⟨by simpa [occursAt] using hb, by omega⟩
      · rintro ⟨_, hmin⟩
        by_contra hne
        have h0 : 0 < i := Nat.pos_of_ne_zero (fun h => hne h.symm)
        exact hmin 0 h0 (by simpa [occursAt] using hb)


/-- `beginsWith` requires the pattern to fit into the text. -/
theorem beginsWith_le_length (pat l : List Char) :
    beginsWith pat l = true → pat.length ≤ l.length := by
  induction pat generalizing l with
  | nil => simp
  | cons p ps ih =>
    cases l with
    | nil => simp [beginsWith]
    | cons c cs =>
      simp only [beginsWith, Bool.and_eq_true, List.length_cons]
      rintro ⟨_, h2⟩
      exact Nat.succ_le_succ (ih cs h2)

/-- A successful nonempty-pattern search fits inside the text. -/
theorem findSub_some_bound (pat l : List Char) (i : Nat)
    (hp : pat ≠ []) (h : findSub pat l = some i) :
    i + pat.length ≤ l.length := by
  rcases (findSub_eq_some_iff pat l i).mp h with ⟨h1, _⟩
  have hle := beginsWith_le_length pat (l.drop i) h1
  have hlen : (l.drop i).length = l.length - i := List.length_drop i l
  have hpos : 0 < pat.length := List.length_pos.mpr hp
  omega

/-- `line.split(pat).last().unwrap()`: the text after the last
(left-to-right, non-overlapping) occurrence of `pat`. The `pat = []`
guard is never hit by the code (the only caller passes `"::"`). -/
def lastSegSplit (pat : List Char) (l : List Char) : List Char :=
  if hp : pat = [] then l
  else
    match hf : findSub pat l with
    | none => l
    | some i => lastSegSplit pat (l.drop (i + pat.length))
termination_by l.length
decreasing_by
  have hb := findSub_some_bound pat l i hp hf
  have hpos : 0 < pat.length := List.length_pos.mpr hp
  simp only [List.length_drop]
  omega

/-- Parse of a `u32` from an all-digit piece (`str::parse::<u32>`):
fails on the empty piece and on overflow. -/
def parseNum (piece : List Char) : Option Nat :=
  if piece.isEmpty then none
  else
    let v := piece.foldl (fun n c => n * 10 + (c.toNat - 48)) 0
    if v < 2 ^ 32 then some v else none

/-- `line.split(|c| !c.is_numeric()).filter_map(parse)` (runner.rs:514):
all numeric substrings of a line, in order. (`char::is_numeric` modelled
as ASCII digits, which agrees on the ASCII summaries scanned here.) -/
def numPieces (line : List Char) : List Nat :=
  (line.splitOnP (fun c => !c.isDigit)).filterMap parseNum

/-- One recovered cargo JSON test event (runner.rs:306-332): requires
`type == "test"`, an `event` string, and a `name` string; `event == "ok"`
counts as passed, anything else as failed. -/
def cargoTestCase (j : Json) : Option TestCaseResult :=
  match (j.get "type".data).bind Json.asStr with
  | some t =>
    if t = "test".data then
      match (j.get "event".data).bind Json.asStr with
      | some ev =>
        match (j.get "name".data).bind Json.asStr with
        | some nm =>
          let test_passed := ev == "ok".data
          some { name := nm
                 passed := test_passed
                 duration_ms := ((j.get "exec_time".data).bind Json.asNum).map durMs
                 error := if !test_passed then (j.get "stdout".data).bind Json.asStr
                          else none
                 stdout := (j.get "stdout".data).bind Json.asStr }
        | none => none
      | none => none
    else none
  | none => none

/-- All test events recovered from the line-delimited JSON scan. -/
def cargoJsonTests (fromStr : List Char → Option Json) (output : List Char) :
    List TestCaseResult :=
  (linesOf output).filterMap (fun line => (fromStr line).bind cargoTestCase)

/-- A plain-text cargo line counts when it starts with `"test "` and
contains `" ... ok"` or `" ... FAILED"` (runner.rs:363). -/
def cargoPlainLine (line : List Char) : Bool :=
  beginsWith "test ".data line &&
    (containsSub " ... ok".data line || containsSub " ... FAILED".data line)

/-- Test case built from a matching plain-text cargo line
(runner.rs:365-384). -/
def cargoPlainCase (line : List Char) : TestCaseResult :=
  { name := ((removeLead "test ".data line).map
      (takeUntilPat " ... ".data)).getD "unknown".data
    passed := containsSub " ... ok".data line
    duration_ms := none
    error := none
    stdout := none }

/-- `parse_cargo_test_plain` (runner.rs:356-397). -/
def parse_cargo_test_plain (output : List Char) : TestSuiteResult :=
  let tests := ((linesOf output).filter cargoPlainLine).map cargoPlainCase
  { total := tests.length
    passed := (tests.filter (fun t => t.passed)).length
    failed := (tests.filter (fun t => !t.passed)).length
    skipped := 0
    tests := tests
    duration_ms := 0
    raw_output := output }

/-- `parse_cargo_test_output` (runner.rs:297-353): JSON events first,
plain-text fallback exactly when no event was recovered. -/
def parse_cargo_test_output (fromStr : List Char → Option Json)
    (output : List Char) : TestSuiteResult :=
  let tests := cargoJsonTests fromStr output
  if tests = [] then parse_cargo_test_plain output
  else
    { total := tests.length
      passed := (tests.filter (fun t => t.passed)).length
      failed := (tests.filter (fun t => !t.passed)).length
      skipped := 0
      tests := tests
      duration_ms := 0
      raw_output := output }

/-- Test case built from a pytest line (runner.rs:411-431): name is the
last `"::"` segment, trimmed, reduced to its first token. -/
def pytestCase (line : List Char) (ok : Bool) : TestCaseResult :=
  let seg := trimWs (lastSegSplit "::".data line)
  { name := (firstToken seg).getD seg
    passed := ok
    duration_ms := none
    error := if ok then none else some "Test failed".data
    stdout := none }

/-- The pytest line loop (runner.rs:407-436), accumulating
(total, passed, failed, skipped, cases). -/
def pytestScan : List (List Char) → Nat × Nat × Nat × Nat × List TestCaseResult
  | [] => (0, 0, 0, 0, [])
  | line :: rest =>
    let r := pytestScan rest
    if containsSub "PASSED".data line then
      (r.1 + 1, r.2.1 + 1, r.2.2.1, r.2.2.2.1, pytestCase line true :: r.2.2.2.2)
    else if containsSub "FAILED".data line then
      (r.1 + 1, r.2.1, r.2.2.1 + 1, r.2.2.2.1, pytestCase line false :: r.2.2.2.2)
    else if containsSub "SKIPPED".data line then
      (r.1 + 1, r.2.1, r.2.2.1, r.2.2.2.1 + 1, r.2.2.2.2)
    else r

/-- `parse_pytest_output` (runner.rs:400-447). -/
def parse_pytest_output (output : List Char) : TestSuiteResult :=
  let r := pytestScan (linesOf output)
  { total := r.1
    passed := r.2.1
    failed := r.2.2.1
    skipped := r.2.2.2.1
    tests := r.2.2.2.2
    duration_ms := 0
    raw_output := output }

/-- Test case built from a go test line (runner.rs:457-486). -/
def goCase (line : List Char) (marker : List Char) (ok : Bool) : TestCaseResult :=
  { name := ((removeLead marker line).bind firstToken).getD "unknown".data
    passed := ok
    duration_ms := none
    error := if ok then none else some "Test failed".data
    stdout := none }

/-- The go-test line loop (runner.rs:456-488), accumulating
(total, passed, failed, cases). -/
def goScan : List (List Char) → Nat × Nat × Nat × List TestCaseResult
  | [] => (0, 0, 0, [])
  | line :: rest =>
    let r := goScan rest
    if beginsWith "--- PASS:".data line then
      (r.1 + 1, r.2.1 + 1, r.2.2.1, goCase line "--- PASS: ".data true :: r.2.2.2)
    else if beginsWith "--- FAIL:".data line then
      (r.1 + 1, r.2.1, r.2.2.1 + 1, goCase line "--- FAIL: ".data false :: r.2.2.2)
    else r

/-- `parse_go_test_output` (runner.rs:450-499). -/
def parse_go_test_output (output : List Char) : TestSuiteResult :=
  let r := goScan (linesOf output)
  { total := r.1
    passed := r.2.1
    failed := r.2.2.1
    skipped := 0
    tests := r.2.2.2
    duration_ms := 0
    raw_output := output }

/-- `str::to_lowercase` (ASCII model). -/
def toLowerL (l : List Char) : List Char := l.map Char.toLower

/-- The generic summary-line scan (runner.rs:509-546): the first line
matching either heuristic pattern determines (total, passed, failed);
everything defaults to zero when no line matches. -/
def genericScan : List (List Char) → Nat × Nat × Nat
  | [] => (0, 0, 0)
  | line :: rest =>
    let low := toLowerL line
    let nums := numPieces line
    if containsSub "passed".data low && containsSub "failed".data low &&
        decide (2 ≤ nums.length) then
      (nums.getD 0 0 + nums.getD 1 0, nums.getD 0 0, nums.getD 1 0)
    else if containsSub "tests:".data low && !nums.isEmpty then
      let p := nums.getD 0 0
      let f := nums.getD 1 0
      let t := nums.getD 2 0
      (if t = 0 then p + f else t, p, f)
    else genericScan rest

/-- `parse_generic_test_output` (runner.rs:502-557). -/
def parse_generic_test_output (output : List Char) : TestSuiteResult :=
  let r := genericScan (linesOf output)
  { total := r.1
    passed := r.2.1
    failed := r.2.2
    skipped := 0
    tests := []
    duration_ms := 0
    raw_output := output }

/-- `TestHarness` (cli/config.rs:54). -/
inductive TestHarness where
  | Cargo (features : List String) (release : Bool)
  | Npm (script : String)
  | Pytest (args : List String)
  | Go (pkg : String)
  | Custom (command : String) (args : List String)

/-- `parse_test_output` (runner.rs:286-294): dispatch on the harness. -/
def parse_test_output (fromStr : List Char → Option Json)
    (harness : TestHarness) (output : List Char) : TestSuiteResult :=
  match harness with
  | .Cargo _ _ => parse_cargo_test_output fromStr output
  | .Npm _ => parse_generic_test_output output
  | .Pytest _ => parse_pytest_output output
  | .Go _ => parse_go_test_output output
  | .Custom _ _ => parse_generic_test_output output

/-- The plain-text cargo sample of the claim: two `" ... ok"` lines and one
`" ... FAILED"` line. -/
def cargoPlainSample : List Char :=
  ("test tests::a ... ok\ntest tests::b ... ok\ntest tests::c ... FAILED").data

/-! ## `src/kubernetes/pod_manager.rs`: `wait_for_completion`

The poll loop races against a deadline (`tokio::time::timeout`); time is
discretised by the number of completed `get_pod_status` polls that fit in
`max_duration`, passed as `maxPolls`. Each call to `get_pod_status` is an
external effect modelled by the sequence `polls : Nat → Except String
PodStatus` of its successive outcomes; the returned action trace records
which pod operations the loop performs. -/

/-- `PodStatus` (pod_manager.rs). -/
inductive PodStatus where
  | Pending | Running | Succeeded | Failed (reason : String) | Unknown
  deriving DecidableEq, Inhabited

/-- The pod operations `wait_for_completion` could perform. -/
inductive PodAction where
  | poll | deletePod
  deriving DecidableEq

/-- A status on which the loop keeps polling. -/
def nonterminalPod (s : PodStatus) : Prop :=
  s = PodStatus.Pending ∨ s = PodStatus.Running ∨ s = PodStatus.Unknown

/-- The polling loop body of `wait_for_completion` (pod_manager.rs:143-171)
with the deadline discretised as remaining fuel; `i` indexes the next
poll. -/
def waitLoop (polls : Nat → Except String PodStatus) :
    Nat → Nat → Except String PodStatus × List PodAction
  | 0, _ => (Except.ok (PodStatus.Failed "Timeout"), [])
  | fuel + 1, i =>
    match polls i with
    | Except.error e => (Except.error e, [PodAction.poll])
    | Except.ok PodStatus.Succeeded =>
        (Except.ok PodStatus.Succeeded, [PodAction.poll])
    | Except.ok (PodStatus.Failed reason) =>
        (Except.ok (PodStatus.Failed reason), [PodAction.poll])
    | Except.ok PodStatus.Pending | Except.ok PodStatus.Running
    | Except.ok PodStatus.Unknown =>
        let rest := waitLoop polls fuel (i + 1)
        (rest.1, PodAction.poll :: rest.2)

/-- `PodManager::wait_for_completion` (pod_manager.rs:129-181): the fueled
poll loop started at the first poll; on fuel exhaustion the `timeout`
branch returns `Ok(Failed("Timeout"))` (pod_manager.rs:176-179). -/
def wait_for_completion (polls : Nat → Except String PodStatus)
    (maxPolls : Nat) : Except String PodStatus × List PodAction :=
  waitLoop polls maxPolls 0

/-! ## `src/eval/runner.rs`: `EvalRunner::run` dispatcher concurrency

`EvalRunner::run` (runner.rs:59-107) acquires one permit of a
`Semaphore::new(parallelism)` before spawning each job task and the task
drops it only after its whole lifecycle (spawn through result append) has
finished. Each combination's task is modelled by its phase: `notStarted`
(before `acquire_owned` returns), `acquired` (permit held, lifecycle not
yet started), `spawned` (permit held, lifecycle in flight), `done`
(permit dropped). The tokio semaphore grants a permit only when fewer
than `parallelism` are outstanding, which is the guard of `acquire`. -/

/-- Phase of one combination's task. -/
inductive TaskPhase where
  | notStarted | acquired | spawned | done
  deriving DecidableEq

/-- Phases that hold a semaphore permit. -/
def holdsPermit : TaskPhase → Bool
  | TaskPhase.acquired => true
  | TaskPhase.spawned => true
  | _ => false

/-- Phases whose job lifecycle (spawn through cleanup/append) is in
flight. -/
def isInFlight : TaskPhase → Bool
  | TaskPhase.spawned => true
  | _ => false

/-- Interleaved execution steps of the dispatcher under parallelism `p`:
a task acquires a permit only when fewer than `p` are held, begins its
job lifecycle only while holding a permit, and releases the permit only
when the lifecycle finishes. -/
inductive DispatchStep (p : Nat) : List TaskPhase → List TaskPhase → Prop where
  | acquire (l₁ l₂ : List TaskPhase) :
      (l₁ ++ TaskPhase.notStarted :: l₂).countP holdsPermit < p →
      DispatchStep p (l₁ ++ TaskPhase.notStarted :: l₂)
        (l₁ ++ TaskPhase.acquired :: l₂)
  | beginJob (l₁ l₂ : List TaskPhase) :
      DispatchStep p (l₁ ++ TaskPhase.acquired :: l₂)
        (l₁ ++ TaskPhase.spawned :: l₂)
  | finishJob (l₁ l₂ : List TaskPhase) :
      DispatchStep p (l₁ ++ TaskPhase.spawned :: l₂)
        (l₁ ++ TaskPhase.done :: l₂)

/-- States reachable by the dispatcher started on `n` combinations. -/
def DispatchReachable (p n : Nat) (s : List TaskPhase) : Prop :=
  Relation.ReflTransGen (DispatchStep p)
    (List.replicate n TaskPhase.notStarted) s

/-! ## `src/eval/results.rs`: aggregation (`calculate_scores`)

The `BTreeMap<String, AgentScore>` is modelled as an association list kept
in strictly ascending key order (its iteration order); `Vec::sort_by` with
the descending `partial_cmp` comparator is a stable sort, and any two
stable sorts under the same comparator coincide, so it is modelled by a
stable insertion sort with the same comparator. -/

/-- `AgentScore` (results.rs:139). -/
structure AgentScore where
  agent_id : List Char
  agent_tool : List Char
  model : List Char
  total_runs : Nat
  completed_runs : Nat
  failed_runs : Nat
  total_tests : Nat
  passed_tests : Nat
  average_score : ℚ
  rank : Nat
  runs : List (List Char)
  deriving DecidableEq, Inhabited

/-- `EvalSummary` (results.rs:185). -/
structure EvalSummary where
  total_combinations : Nat
  completed : Nat
  failed : Nat
  timed_out : Nat
  total_tests : Nat
  passed_tests : Nat
  overall_pass_rate : ℚ
  best_agent : Option (List Char)
  worst_agent : Option (List Char)
  deriving DecidableEq, Inhabited

/-- `EvaluationResults` (results.rs:166). -/
structure EvaluationResults where
  name : String
  eval_id : String
  started_at : Nat
  completed_at : Option Nat
  runs : List EvalRunResult
  agent_scores : List AgentScore
  summary : EvalSummary
  deriving DecidableEq, Inhabited

/-- The `or_insert` default `AgentScore` (results.rs:239-251). -/
def emptyAgentScore (run : EvalRunResult) : AgentScore :=
  { agent_id := run.agent_id
    agent_tool := run.agent_tool
    model := run.model
    total_runs := 0
    completed_runs := 0
    failed_runs := 0
    total_tests := 0
    passed_tests := 0
    average_score := 0
    rank := 0
    runs := [] }

/-- The per-run group update (results.rs:253-268). -/
def accumRun (run : EvalRunResult) (s : AgentScore) : AgentScore :=
  let s1 := { s with total_runs := s.total_runs + 1
                     runs := s.runs ++ [run.run_id] }
  match run.status with
  | RunStatus.Completed =>
    let s2 := { s1 with completed_runs := s1.completed_runs + 1 }
    match run.test_results with
    | some tr => { s2 with total_tests := s2.total_tests + tr.total
                           passed_tests := s2.passed_tests + tr.passed }
    | none => s2
  | RunStatus.Failed | RunStatus.Timeout =>
    { s1 with failed_runs := s1.failed_runs + 1 }
  | _ => s1

/-- `agent_map.entry(agent_id).or_insert(..)` followed by the group update,
on the key-ordered association list modelling the `BTreeMap`. -/
def mapInsert (run : EvalRunResult) :
    List (List Char × AgentScore) → List (List Char × AgentScore)
  | [] => [(run.agent_id, accumRun run (emptyAgentScore run))]
  | (k, v) :: rest =>
    if run.agent_id = k then (k, accumRun run v) :: rest
    else if run.agent_id < k then
      (run.agent_id, accumRun run (emptyAgentScore run)) :: (k, v) :: rest
    else (k, v) :: mapInsert run rest

/-- The grouping loop (results.rs:238-269). -/
def agentMap (runs : List EvalRunResult) : List (List Char × AgentScore) :=
  runs.foldl (fun m r => mapInsert r m) []

/-- The average-score pass (results.rs:272-276): only groups with tests
get an average; the rest keep the accumulated `0.0`. -/
def setAverage (s : AgentScore) : AgentScore :=
  if 0 < s.total_tests then
    { s with average_score := ((s.passed_tests : ℚ) / (s.total_tests : ℚ)) * 100 }
  else s

/-- Stable descending insertion by `average_score`: an element passes over
exactly the strictly higher scores, so equal scores retain their relative
order. -/
def insertDesc (x : AgentScore) : List AgentScore → List AgentScore
  | [] => [x]
  | y :: ys =>
    if y.average_score ≤ x.average_score then x :: y :: ys
    else y :: insertDesc x ys

/-- Model of the stable `scores.sort_by(|a, b|
b.average_score.partial_cmp(&a.average_score).unwrap())`
(results.rs:280). -/
def sortScoresDesc : List AgentScore → List AgentScore
  | [] => []
  | x :: xs => insertDesc x (sortScoresDesc xs)

/-- The rank-assignment loop (results.rs:282-284): position `i` gets rank
`i + 1`. -/
def assignRanksFrom (i : Nat) : List AgentScore → List AgentScore
  | [] => []
  | s :: rest => { s with rank := i + 1 } :: assignRanksFrom (i + 1) rest

/-- `EvaluationResults::calculate_scores` (results.rs:235-315). -/
def calculate_scores (res : EvaluationResults) : EvaluationResults :=
  let scores := assignRanksFrom 0
    (sortScoresDesc (((agentMap res.runs).map Prod.snd).map setAverage))
  let total_tests := (scores.map (fun s => s.total_tests)).sum
  let passed_tests := (scores.map (fun s => s.passed_tests)).sum
  { res with
    agent_scores := scores
    summary := { res.summary with
      total_combinations := res.runs.length
      completed :=
        (res.runs.filter (fun r => r.status == RunStatus.Completed)).length
      failed :=
        (res.runs.filter (fun r => r.status == RunStatus.Failed)).length
      timed_out :=
        (res.runs.filter (fun r => r.status == RunStatus.Timeout)).length
      total_tests := total_tests
      passed_tests := passed_tests
      overall_pass_rate :=
        if 0 < total_tests then
          ((passed_tests : ℚ) / (total_tests : ℚ)) * 100
        else res.summary.overall_pass_rate
      best_agent := scores.head?.map (fun s => s.agent_id)
      worst_agent := scores.getLast?.map (fun s => s.agent_id) } }

/-! Specification-side helpers for stating the aggregation claims. -/

/-- The runs of agent `a`. -/
def runsOf (runs : List EvalRunResult) (a : List Char) : List EvalRunResult :=
  runs.filter (fun r => r.agent_id == a)

/-- A run counted into `failed_runs` (`Failed` or `Timeout`). -/
def isFailRun (r : EvalRunResult) : Bool :=
  match r.status with
  | RunStatus.Failed => true
  | RunStatus.Timeout => true
  | _ => false

/-- A `Completed` run. -/
def isCompletedRun (r : EvalRunResult) : Bool :=
  match r.status with
  | RunStatus.Completed => true
  | _ => false

/-- The test-count contribution of one run to its group. -/
def runTestTotal (r : EvalRunResult) : Nat :=
  if isCompletedRun r then (r.test_results.map (fun t => t.total)).getD 0 else 0

/-- The passed-count contribution of one run to its group. -/
def runTestPassed (r : EvalRunResult) : Nat :=
  if isCompletedRun r then (r.test_results.map (fun t => t.passed)).getD 0 else 0

/-- The per-agent grouping facts claimed of each produced `AgentScore`:
run counts over the agent's runs, test sums over its `Completed` runs
only, and the average formula with its zero guard. -/
def groupFacts (runs : List EvalRunResult) (s : AgentScore) : Prop :=
  s.total_runs = (runsOf runs s.agent_id).length ∧
  s.failed_runs = ((runsOf runs s.agent_id).filter isFailRun).length ∧
  s.total_tests = (((runsOf runs s.agent_id).filter isCompletedRun).map
    (fun r => (r.test_results.map (fun t => t.total)).getD 0)).sum ∧
  s.passed_tests = (((runsOf runs s.agent_id).filter isCompletedRun).map
    (fun r => (r.test_results.map (fun t => t.passed)).getD 0)).sum ∧
  s.average_score =
    (if s.total_tests = 0 then 0
     else ((s.passed_tests : ℚ) / (s.total_tests : ℚ)) * 100)

/-- Erase the rank field (the only field rank assignment changes). -/
def stripRank (s : AgentScore) : AgentScore := { s with rank := 0 }

/-- Keys strictly ascending: the `BTreeMap` iteration-order invariant. -/
def keysSorted (m : List (List Char × AgentScore)) : Prop :=
  m.Pairwise (fun p q => p.1 < q.1)

/-- Association-list lookup (first match). -/
def alookup (a : List Char) : List (List Char × AgentScore) → Option AgentScore
  | [] => none
  | (k, v) :: rest => if a = k then some v else alookup a rest

/-- The group value accumulated onto an optional existing entry by a list
of runs, mirroring `entry().or_insert()` plus the update, run by run. -/
def extendScore (o : Option AgentScore) (l : List EvalRunResult) :
    Option AgentScore :=
  l.foldl (fun acc r => some (accumRun r (acc.getD (emptyAgentScore r)))) o

/-- Fold a list of runs into a group value. -/
def foldAccum (s : AgentScore) (l : List EvalRunResult) : AgentScore :=
  l.foldl (fun s r => accumRun r s) s

/-- The pairwise order of the final score list: descending scores, ties in
ascending `agent_id` order. -/
def scoreOrdered (a b : AgentScore) : Prop :=
  b.average_score ≤ a.average_score ∧
  (a.average_score = b.average_score → a.agent_id < b.agent_id)

/-- The two sample runs of the repository's scoring test
(results.rs:440-485): agent-1 completes 8/10, agent-2 completes 6/10. -/
def sampleResults : EvaluationResults :=
  { name := "Test Eval"
    eval_id := "eval-1"
    started_at := 0
    completed_at := none
    runs :=
      [(EvalRunResult.new "run-1".data "prompt-1".data "agent-1".data
          "claude-code".data "opus-4.5".data 0).complete_with_results
          { total := 10, passed := 8, failed := 2, skipped := 0, tests := [],
            duration_ms := 1000, raw_output := [] } 5,
       (EvalRunResult.new "run-2".data "prompt-1".data "agent-2".data
          "codex".data "gpt-5.2-xhigh".data 0).complete_with_results
          { total := 10, passed := 6, failed := 4, skipped := 0, tests := [],
            duration_ms := 1000, raw_output := [] } 5]
    agent_scores := []
    summary :=
      { total_combinations := 0, completed := 0, failed := 0, timed_out := 0,
        total_tests := 0, passed_tests := 0, overall_pass_rate := 0,
        best_agent := none, worst_agent := none } }

/-- Two failed runs of distinct agents, inserted in descending id order:
both groups have no tests, so their average scores tie at `0`. -/
def tieResults : EvaluationResults :=
  { sampleResults with
    runs :=
      [(EvalRunResult.new "r1".data "p".data "b-agent".data "tool-b".data "m".data 0).fail_with_error
          "agent failed" 1,
       (EvalRunResult.new "r2".data "p".data "a-agent".data "tool-a".data "m".data 0).fail_with_error
          "agent failed" 1] }

/-- A three-run, two-agent input mixing a `Completed` run (with an empty
suite) and `Failed` runs, used to evaluate the grouping facts on a
concrete input. -/
def mixedResults : EvaluationResults :=
  { sampleResults with
    runs :=
      [(EvalRunResult.new "w1".data "p".data "agent-a".data "t".data "m".data 0).complete_with_results
          { total := 0, passed := 0, failed := 0, skipped := 0, tests := [],
            duration_ms := 0, raw_output := [] } 3,
       (EvalRunResult.new "w2".data "p".data "agent-b".data "t".data "m".data 0).fail_with_error
          "spawn error" 3,
       (EvalRunResult.new "w3".data "p".data "agent-a".data "t".data "m".data 0).fail_with_error
          "parse error" 4] }

end AnodeEvals

namespace AnodeEvals

/-! ## Claim theorems: C3, C4, C5 -/

/-- C4: `complete_with_results` yields status `Completed`, score
`Some(pass_rate)`, the suite stored in `test_results`, and `completed_at`
set; `fail_with_error` yields status `Failed`, score `Some(0.0)`, the
message stored in `error`, and `completed_at` set. -/
theorem complete_and_fail_postconditions
    (r : EvalRunResult) (t : TestSuiteResult) (e : String) (now : Nat) :
    ((r.complete_with_results t now).status = RunStatus.Completed ∧
      (r.complete_with_results t now).score = some t.pass_rate ∧
      (r.complete_with_results t now).test_results = some t ∧
      (r.complete_with_results t now).completed_at = some now) ∧
    ((r.fail_with_error e now).status = RunStatus.Failed ∧
      (r.fail_with_error e now).score = some 0 ∧
      (r.fail_with_error e now).error = some e ∧
      (r.fail_with_error e now).completed_at = some now) := by
  refine ⟨⟨rfl, rfl, rfl, rfl⟩, ⟨rfl, rfl, rfl, rfl⟩⟩

/-- C3: every reachable `EvalRunResult` satisfies the invariant that
`completed_at` is set exactly when the status is neither `Pending` nor
`Running`, and whenever `completed_at` is set the score is set too. -/
theorem reachable_run_invariant (r : EvalRunResult) (h : ReachableRun r) :
    (r.completed_at.isSome = true ↔
      (r.status ≠ RunStatus.Pending ∧ r.status ≠ RunStatus.Running)) ∧
    (r.completed_at.isSome = true → r.score.isSome = true) := by
  induction h with
  | fresh rid pid aid tool mdl now =>
    simp [EvalRunResult.new]
  | dispatchRunning r hr hPend ih =>
    constructor
    · simp only [Option.isSome]
      constructor
      · intro hsome
        exfalso
        rcases ih with ⟨ih1, _⟩
        have := ih1.mp (by simpa using hsome)
        exact this.1 hPend
      · intro hst
        exact absurd rfl hst.2
    · intro hsome
      exact ih.2 (by simpa using hsome)
  | attachLogs r logs hr ih =>
    simpa [EvalRunResult.setAgentLogs] using ih
  | completes r t now hr ih =>
    simp [EvalRunResult.complete_with_results]
  | fails r e now hr ih =>
    simp [EvalRunResult.fail_with_error]

/-- Witness for C3: the invariant holds at a concretely reachable state
(a freshly failed run). -/
theorem reachable_run_invariant_witness :
    (((EvalRunResult.new "r".data "p".data "a".data "t".data "m".data 0).fail_with_error "boom" 5
        ).completed_at.isSome = true ↔
      (((EvalRunResult.new "r".data "p".data "a".data "t".data "m".data 0).fail_with_error "boom" 5
        ).status ≠ RunStatus.Pending ∧
       ((EvalRunResult.new "r".data "p".data "a".data "t".data "m".data 0).fail_with_error "boom" 5
        ).status ≠ RunStatus.Running)) ∧
    (((EvalRunResult.new "r".data "p".data "a".data "t".data "m".data 0).fail_with_error "boom" 5
        ).completed_at.isSome = true →
      ((EvalRunResult.new "r".data "p".data "a".data "t".data "m".data 0).fail_with_error "boom" 5
        ).score.isSome = true) :=
  reachable_run_invariant _
    (ReachableRun.fails _ "boom" 5 (ReachableRun.fresh "r".data "p".data "a".data "t".data "m".data 0))

/-- C5: `pass_rate` is `0` when `total = 0` (no division by zero occurs),
is `passed/total*100` otherwise, and is exactly `80` on a suite with
`passed = 8`, `total = 10`. -/
theorem pass_rate_spec (t : TestSuiteResult) :
    (t.total = 0 → t.pass_rate = 0) ∧
    (t.total ≠ 0 → t.pass_rate = ((t.passed : ℚ) / (t.total : ℚ)) * 100) ∧
    TestSuiteResult.pass_rate
      { total := 10, passed := 8, failed := 2, skipped := 0, tests := [],
        duration_ms := 1000, raw_output := [] } = 80 := by
  refine ⟨fun h => by simp [TestSuiteResult.pass_rate, h],
          fun h => by simp [TestSuiteResult.pass_rate, h],
          by norm_num [TestSuiteResult.pass_rate]⟩

/-- C2: `extract_test_output` returns the whitespace-trimmed substring
strictly between the first `TEST_OUTPUT_START` and the first
`TEST_OUTPUT_END` occurring after it, returns `none` exactly when the
start marker is absent or no end marker occurs after it, and on an input
containing `"TEST_OUTPUT_START foo bar TEST_OUTPUT_END"` returns
`some "foo bar"`. -/
theorem extract_test_output_spec (logs : List Char) :
    (∀ i, (occursAt startMarker logs i ∧
           ∀ j, j < i → ¬ occursAt startMarker logs j) →
      (∀ k, (occursAt endMarker (logs.drop (i + startMarker.length)) k ∧
             ∀ j, j < k →
               ¬ occursAt endMarker (logs.drop (i + startMarker.length)) j) →
        extract_test_output logs =
          some (trimWs ((logs.drop (i + startMarker.length)).take k))) ∧
      ((∀ k, ¬ occursAt endMarker (logs.drop (i + startMarker.length)) k) →
        extract_test_output logs = none)) ∧
    ((∀ i, ¬ occursAt startMarker logs i) → extract_test_output logs = none) ∧
    extract_test_output
        ("agent log\nTEST_OUTPUT_START foo bar TEST_OUTPUT_END\ntail".data) =
      some ("foo bar".data) := by
  refine ⟨?_, ?_, by decide⟩
  · intro i hi
    have hs : findSub startMarker logs = some i :=
      (findSub_eq_some_iff startMarker logs i).mpr hi
    constructor
    · intro k hk
      have he : findSub endMarker (logs.drop (i + startMarker.length)) =
          some k :=
        (findSub_eq_some_iff _ _ k).mpr hk
      simp [extract_test_output, hs, he]
    · intro hk
      have he : findSub endMarker (logs.drop (i + startMarker.length)) =
          none :=
        (findSub_eq_none_iff _ _).mpr hk
      simp [extract_test_output, hs, he]
  · intro hno
    have hs : findSub startMarker logs = none :=
      (findSub_eq_none_iff _ _).mpr hno
    simp [extract_test_output, hs]

/-- Witness for C2: the extraction equation of the theorem instantiated at
a concrete log text, with the first-occurrence hypotheses discharged by
computation. -/
theorem extract_test_output_spec_witness :
    extract_test_output ("XTEST_OUTPUT_START hi TEST_OUTPUT_END".data) =
      some (trimWs ((("XTEST_OUTPUT_START hi TEST_OUTPUT_END".data).drop
        (1 + startMarker.length)).take 4)) :=
  (((extract_test_output_spec
      ("XTEST_OUTPUT_START hi TEST_OUTPUT_END".data)).1 1
    ⟨by decide, by decide⟩).1 4 ⟨by decide, by decide⟩)

/-- C6: the cargo parser recovers line-delimited JSON test events
(`type == "test"`, `event == "ok"` counted as passed, any other event as
failed, name recorded), falls back to the plain-text scan exactly when
zero events were recovered, and on the plain-text sample with two
`" ... ok"` lines and one `" ... FAILED"` line yields
`total = 3, passed = 2, failed = 1`. -/
theorem parse_cargo_test_output_spec (fromStr : List Char → Option Json)
    (output : List Char) :
    (cargoJsonTests fromStr output = [] →
      parse_cargo_test_output fromStr output = parse_cargo_test_plain output) ∧
    (cargoJsonTests fromStr output ≠ [] →
      parse_cargo_test_output fromStr output =
        { total := (cargoJsonTests fromStr output).length
          passed := ((cargoJsonTests fromStr output).filter
            (fun t => t.passed)).length
          failed := ((cargoJsonTests fromStr output).filter
            (fun t => !t.passed)).length
          skipped := 0
          tests := cargoJsonTests fromStr output
          duration_ms := 0
          raw_output := output }) ∧
    (∀ j tc, cargoTestCase j = some tc →
      (j.get "type".data).bind Json.asStr = some "test".data ∧
      ∃ ev, (j.get "event".data).bind Json.asStr = some ev ∧
        (tc.passed = true ↔ ev = "ok".data) ∧
        (j.get "name".data).bind Json.asStr = some tc.name) ∧
    ((∀ l ∈ linesOf cargoPlainSample, fromStr l = none) →
      (parse_cargo_test_output fromStr cargoPlainSample).total = 3 ∧
      (parse_cargo_test_output fromStr cargoPlainSample).passed = 2 ∧
      (parse_cargo_test_output fromStr cargoPlainSample).failed = 1) := by
  refine ⟨fun h => by simp [parse_cargo_test_output, h],
          fun h => by simp [parse_cargo_test_output, h],
          ?_, ?_⟩
  · intro j tc h
    unfold cargoTestCase at h
    split at h
    · rename_i t hT
      split at h
      · rename_i hTest
        split at h
        · rename_i ev hEv
          split at h
          · rename_i nm hNm
            simp only [Option.some.injEq] at h
            subst h
            subst hTest
            refine ⟨hT, ev, hEv, ?_, hNm⟩
            simp
          · cases h
        · cases h
      · cases h
    · cases h
  · intro hno
    have hempty : cargoJsonTests fromStr cargoPlainSample = [] := by
      unfold cargoJsonTests
      rw [List.filterMap_eq_nil_iff]
      intro a ha
      rw [hno a ha]
      rfl
    have hfb : parse_cargo_test_output fromStr cargoPlainSample =
        parse_cargo_test_plain cargoPlainSample := by
      simp [parse_cargo_test_output, hempty]
    rw [hfb]
    refine ⟨by decide, by decide, by decide⟩

/-- Witness for C6: the plain-text fallback of the theorem, instantiated
with the decoder that rejects every line (plain text is not JSON). -/
theorem parse_cargo_test_output_spec_witness :
    (parse_cargo_test_output (fun _ => none) cargoPlainSample).total = 3 ∧
    (parse_cargo_test_output (fun _ => none) cargoPlainSample).passed = 2 ∧
    (parse_cargo_test_output (fun _ => none) cargoPlainSample).failed = 1 :=
  (parse_cargo_test_output_spec (fun _ => none) cargoPlainSample).2.2.2
    (fun _ _ => rfl)

/-- C8: every harness parser returns the full, unmodified input text in
`raw_output`, whatever was or was not extracted. -/
theorem parsers_keep_raw_output (fromStr : List Char → Option Json)
    (output : List Char) :
    (∀ harness, (parse_test_output fromStr harness output).raw_output = output) ∧
    (parse_cargo_test_plain output).raw_output = output := by
  have hplain : (parse_cargo_test_plain output).raw_output = output := rfl
  refine ⟨?_, hplain⟩
  intro harness
  cases harness with
  | Cargo features release =>
    show (parse_cargo_test_output fromStr output).raw_output = output
    by_cases h : cargoJsonTests fromStr output = []
    · simpa [parse_cargo_test_output, h] using hplain
    · simp [parse_cargo_test_output, h]
  | Npm script => rfl
  | Pytest args => rfl
  | Go pkg => rfl
  | Custom command args => rfl

/-- Witness for C5: both branches evaluated at concrete suites. -/
theorem pass_rate_spec_witness :
    TestSuiteResult.pass_rate
      { total := 0, passed := 0, failed := 0, skipped := 0, tests := [],
        duration_ms := 0, raw_output := [] } = 0 ∧
    TestSuiteResult.pass_rate
      { total := 10, passed := 8, failed := 2, skipped := 0, tests := [],
        duration_ms := 1000, raw_output := [] } =
      ((8 : ℚ) / 10) * 100 :=
  ⟨(pass_rate_spec _).1 rfl, by
    have h := (pass_rate_spec
      { total := 10, passed := 8, failed := 2, skipped := 0, tests := [],
        duration_ms := 1000, raw_output := [] }).2.1 (by norm_num)
    simpa using h⟩

/-! ## Claim theorems: C7, C9 -/

/-- Under nonterminal polls the loop exhausts its fuel into
`Ok(Failed("Timeout"))`. -/
theorem waitLoop_timeout (polls : Nat → Except String PodStatus)
    (fuel i : Nat)
    (h : ∀ k, k < fuel → ∃ s, polls (i + k) = Except.ok s ∧ nonterminalPod s) :
    (waitLoop polls fuel i).1 = Except.ok (PodStatus.Failed "Timeout") := by
  induction fuel generalizing i with
  | zero => rfl
  | succ fuel ih =>
    rcases h 0 (Nat.succ_pos fuel) with ⟨s, hs, hnt⟩
    rw [Nat.add_zero] at hs
    have hrec := ih (i + 1) (fun k hk => by
      have := h (k + 1) (Nat.succ_lt_succ hk)
      rwa [show i + (k + 1) = i + 1 + k by omega] at this)
    rcases hnt with h1 | h1 | h1 <;> subst h1 <;>
      simp [waitLoop, hs, hrec]

/-- A terminal status observed after only nonterminal polls is returned
as-is. -/
theorem waitLoop_terminal (polls : Nat → Except String PodStatus)
    (k : Nat) :
    ∀ fuel i, k < fuel →
    (∀ j, j < k → ∃ s, polls (i + j) = Except.ok s ∧ nonterminalPod s) →
    (polls (i + k) = Except.ok PodStatus.Succeeded →
      (waitLoop polls fuel i).1 = Except.ok PodStatus.Succeeded) ∧
    (∀ r, polls (i + k) = Except.ok (PodStatus.Failed r) →
      (waitLoop polls fuel i).1 = Except.ok (PodStatus.Failed r)) := by
  induction k with
  | zero =>
    intro fuel i hfuel _
    obtain ⟨fuel, rfl⟩ : ∃ f, fuel = f + 1 :=
      ⟨fuel - 1, by omega⟩
    constructor
    · intro hp
      rw [Nat.add_zero] at hp
      simp [waitLoop, hp]
    · intro r hp
      rw [Nat.add_zero] at hp
      simp [waitLoop, hp]
  | succ k ih =>
    intro fuel i hfuel hpre
    obtain ⟨fuel, rfl⟩ : ∃ f, fuel = f + 1 :=
      ⟨fuel - 1, by omega⟩
    rcases hpre 0 (Nat.succ_pos k) with ⟨s, hs, hnt⟩
    rw [Nat.add_zero] at hs
    have hrec := ih fuel (i + 1) (by omega) (fun j hj => by
      have := hpre (j + 1) (Nat.succ_lt_succ hj)
      rwa [show i + (j + 1) = i + 1 + j by omega] at this)
    have harg : i + (k + 1) = i + 1 + k := by omega
    constructor
    · intro hp
      rw [harg] at hp
      rcases hnt with h1 | h1 | h1 <;> subst h1 <;>
        simp [waitLoop, hs, hrec.1 hp]
    · intro r hp
      rw [harg] at hp
      rcases hnt with h1 | h1 | h1 <;> subst h1 <;>
        simp [waitLoop, hs, hrec.2 r hp]

/-- The wait loop never performs a pod deletion. -/
theorem waitLoop_no_delete (polls : Nat → Except String PodStatus)
    (fuel i : Nat) :
    PodAction.deletePod ∉ (waitLoop polls fuel i).2 := by
  induction fuel generalizing i with
  | zero => simp [waitLoop]
  | succ fuel ih =>
    rcases hp : polls i with e | s
    · simp [waitLoop, hp]
    · cases s <;> simp [waitLoop, hp] <;> exact ih (i + 1)

/-- C7: when the deadline elapses with only nonterminal statuses observed,
`wait_for_completion` returns the non-error value `Failed("Timeout")`;
a `Succeeded` or `Failed(reason)` status observed before the deadline
(after only nonterminal polls, i.e. `Pending`/`Running`/`Unknown`, which
keep the loop polling) is returned as observed; and no branch of the wait
performs a pod deletion. -/
theorem wait_for_completion_spec (polls : Nat → Except String PodStatus)
    (maxPolls : Nat) :
    ((∀ i, i < maxPolls → ∃ s, polls i = Except.ok s ∧ nonterminalPod s) →
      (wait_for_completion polls maxPolls).1 =
        Except.ok (PodStatus.Failed "Timeout")) ∧
    (∀ k, k < maxPolls →
      (∀ j, j < k → ∃ s, polls j = Except.ok s ∧ nonterminalPod s) →
      (polls k = Except.ok PodStatus.Succeeded →
        (wait_for_completion polls maxPolls).1 =
          Except.ok PodStatus.Succeeded) ∧
      (∀ r, polls k = Except.ok (PodStatus.Failed r) →
        (wait_for_completion polls maxPolls).1 =
          Except.ok (PodStatus.Failed r))) ∧
    PodAction.deletePod ∉ (wait_for_completion polls maxPolls).2 := by
  refine ⟨?_, ?_, waitLoop_no_delete polls maxPolls 0⟩
  · intro h
    exact waitLoop_timeout polls maxPolls 0 (fun k hk => by
      simpa using h k hk)
  · intro k hk hpre
    have := waitLoop_terminal polls k maxPolls 0 hk (fun j hj => by
      simpa using hpre j hj)
    simpa [wait_for_completion] using this

/-- Witness for C7: a pod that never leaves `Running` times out after the
deadline, and a pod succeeding at the third poll is reported
`Succeeded`. -/
theorem wait_for_completion_spec_witness :
    (wait_for_completion (fun _ => Except.ok PodStatus.Running) 3).1 =
      Except.ok (PodStatus.Failed "Timeout") ∧
    (wait_for_completion
        (fun n => if n < 2 then Except.ok PodStatus.Running
                  else Except.ok PodStatus.Succeeded) 5).1 =
      Except.ok PodStatus.Succeeded := by
  constructor
  · exact (wait_for_completion_spec (fun _ => Except.ok PodStatus.Running) 3).1
      (fun i _ => ⟨PodStatus.Running, rfl, Or.inr (Or.inl rfl)⟩)
  · refine ((wait_for_completion_spec _ 5).2.1 2 (by omega)
      (fun j hj => ⟨PodStatus.Running, ?_, Or.inr (Or.inl rfl)⟩)).1 ?_
    · simp [hj]
    · simp

/-- Permits held never exceed the parallelism bound. -/
theorem dispatch_permits_bounded (p n : Nat) (s : List TaskPhase)
    (h : DispatchReachable p n s) :
    s.countP holdsPermit ≤ p := by
  induction h with
  | refl =>
    simp [List.countP_replicate, holdsPermit]
  | tail hstep step ih =>
    cases step with
    | acquire l₁ l₂ hguard =>
      simp [List.countP_append, List.countP_cons, holdsPermit] at *
      omega
    | beginJob l₁ l₂ =>
      simp [List.countP_append, List.countP_cons, holdsPermit] at *
      omega
    | finishJob l₁ l₂ =>
      simp [List.countP_append, List.countP_cons, holdsPermit] at *
      omega

/-- C9: in every dispatcher state reachable under parallelism `p`, at most
`p` job lifecycles are in flight simultaneously: a task holds one of the
`p` permits from before its lifecycle begins until after it completes,
so the number of concurrently spawned jobs never exceeds `p`. -/
theorem dispatcher_inflight_le_parallelism (p n : Nat) (s : List TaskPhase)
    (h : DispatchReachable p n s) :
    s.countP isInFlight ≤ p := by
  have hsub : s.countP isInFlight ≤ s.countP holdsPermit := by
    apply List.countP_mono_left
    intro x _ hx
    cases x <;> simp_all [isInFlight, holdsPermit]
  exact le_trans hsub (dispatch_permits_bounded p n s h)

/-- Witness for C9: with parallelism 1 and 3 combinations, the state with
the first job spawned is reachable and has one lifecycle in flight. -/
theorem dispatcher_inflight_le_parallelism_witness :
    List.countP isInFlight
      [TaskPhase.spawned, TaskPhase.notStarted, TaskPhase.notStarted] ≤ 1 := by
  have h1 : DispatchStep 1
      [TaskPhase.notStarted, TaskPhase.notStarted, TaskPhase.notStarted]
      [TaskPhase.acquired, TaskPhase.notStarted, TaskPhase.notStarted] :=
    DispatchStep.acquire [] [TaskPhase.notStarted, TaskPhase.notStarted]
      (by decide)
  have h2 : DispatchStep 1
      [TaskPhase.acquired, TaskPhase.notStarted, TaskPhase.notStarted]
      [TaskPhase.spawned, TaskPhase.notStarted, TaskPhase.notStarted] :=
    DispatchStep.beginJob [] [TaskPhase.notStarted, TaskPhase.notStarted]
  exact dispatcher_inflight_le_parallelism 1 3 _
    (Relation.ReflTransGen.tail (Relation.ReflTransGen.tail
      (by simpa [List.replicate] using
        (Relation.ReflTransGen.refl
          (a := [TaskPhase.notStarted, TaskPhase.notStarted,
                 TaskPhase.notStarted]))) h1) h2)

/-! ## Aggregation lemmas (toward C1 and C10) -/

/-- `accumRun` leaves identity, average and rank untouched. -/
theorem accumRun_preserved (run : EvalRunResult) (s : AgentScore) :
    (accumRun run s).agent_id = s.agent_id ∧
    (accumRun run s).agent_tool = s.agent_tool ∧
    (accumRun run s).model = s.model ∧
    (accumRun run s).average_score = s.average_score ∧
    (accumRun run s).rank = s.rank := by
  rcases hst : run.status <;> rcases htr : run.test_results <;>
    simp [accumRun, hst, htr]

/-- `accumRun` counts every run once. -/
theorem accumRun_total_runs (run : EvalRunResult) (s : AgentScore) :
    (accumRun run s).total_runs = s.total_runs + 1 := by
  rcases hst : run.status <;> rcases htr : run.test_results <;>
    simp [accumRun, hst, htr]

/-- `accumRun` counts `Failed`/`Timeout` runs into `failed_runs`. -/
theorem accumRun_failed_runs (run : EvalRunResult) (s : AgentScore) :
    (accumRun run s).failed_runs =
      s.failed_runs + (if isFailRun run then 1 else 0) := by
  rcases hst : run.status <;> rcases htr : run.test_results <;>
    simp [accumRun, isFailRun, hst, htr]

/-- `accumRun` adds the run's test total (Completed runs only). -/
theorem accumRun_total_tests (run : EvalRunResult) (s : AgentScore) :
    (accumRun run s).total_tests = s.total_tests + runTestTotal run := by
  rcases hst : run.status <;> rcases htr : run.test_results <;>
    simp [accumRun, runTestTotal, isCompletedRun, hst, htr]

/-- `accumRun` adds the run's passed total (Completed runs only). -/
theorem accumRun_passed_tests (run : EvalRunResult) (s : AgentScore) :
    (accumRun run s).passed_tests = s.passed_tests + runTestPassed run := by
  rcases hst : run.status <;> rcases htr : run.test_results <;>
    simp [accumRun, runTestPassed, isCompletedRun, hst, htr]

/-- `foldAccum` leaves identity, average and rank untouched. -/
theorem foldAccum_preserved (l : List EvalRunResult) :
    ∀ s : AgentScore,
    (foldAccum s l).agent_id = s.agent_id ∧
    (foldAccum s l).agent_tool = s.agent_tool ∧
    (foldAccum s l).model = s.model ∧
    (foldAccum s l).average_score = s.average_score ∧
    (foldAccum s l).rank = s.rank := by
  induction l with
  | nil => intro s; exact ⟨rfl, rfl, rfl, rfl, rfl⟩
  | cons r rest ih =>
    intro s
    have h1 := accumRun_preserved r s
    have h2 := ih (accumRun r s)
    exact ⟨h2.1.trans h1.1, h2.2.1.trans h1.2.1, h2.2.2.1.trans h1.2.2.1,
           h2.2.2.2.1.trans h1.2.2.2.1, h2.2.2.2.2.trans h1.2.2.2.2⟩

/-- `foldAccum` counts every run. -/
theorem foldAccum_total_runs (l : List EvalRunResult) :
    ∀ s : AgentScore, (foldAccum s l).total_runs = s.total_runs + l.length := by
  induction l with
  | nil => intro s; rfl
  | cons r rest ih =>
    intro s
    have h2 := ih (accumRun r s)
    have h1 := accumRun_total_runs r s
    show (foldAccum (accumRun r s) rest).total_runs = _
    rw [h2, h1]
    simp [List.length_cons]
    omega

/-- `foldAccum` counts exactly the `Failed`/`Timeout` runs as failed. -/
theorem foldAccum_failed_runs (l : List EvalRunResult) :
    ∀ s : AgentScore,
    (foldAccum s l).failed_runs = s.failed_runs + l.countP isFailRun := by
  induction l with
  | nil => intro s; rfl
  | cons r rest ih =>
    intro s
    have h2 := ih (accumRun r s)
    have h1 := accumRun_failed_runs r s
    show (foldAccum (accumRun r s) rest).failed_runs = _
    rw [h2, h1, List.countP_cons]
    rcases hf : isFailRun r <;> simp [hf] <;> omega

/-- `foldAccum` sums the test totals of the runs. -/
theorem foldAccum_total_tests (l : List EvalRunResult) :
    ∀ s : AgentScore,
    (foldAccum s l).total_tests = s.total_tests + (l.map runTestTotal).sum := by
  induction l with
  | nil => intro s; rfl
  | cons r rest ih =>
    intro s
    have h2 := ih (accumRun r s)
    have h1 := accumRun_total_tests r s
    show (foldAccum (accumRun r s) rest).total_tests = _
    rw [h2, h1, List.map_cons, List.sum_cons]
    omega

/-- `foldAccum` sums the passed totals of the runs. -/
theorem foldAccum_passed_tests (l : List EvalRunResult) :
    ∀ s : AgentScore,
    (foldAccum s l).passed_tests = s.passed_tests + (l.map runTestPassed).sum := by
  induction l with
  | nil => intro s; rfl
  | cons r rest ih =>
    intro s
    have h2 := ih (accumRun r s)
    have h1 := accumRun_passed_tests r s
    show (foldAccum (accumRun r s) rest).passed_tests = _
    rw [h2, h1, List.map_cons, List.sum_cons]
    omega

/-- `extendScore` over an existing entry is a plain fold. -/
theorem extendScore_some (l : List EvalRunResult) :
    ∀ s : AgentScore, extendScore (some s) l = some (foldAccum s l) := by
  induction l with
  | nil => intro s; rfl
  | cons r rest ih =>
    intro s
    show extendScore (some (accumRun r s)) rest = _
    exact ih (accumRun r s)

/-- The per-run totals sum to the claimed Completed-runs-only sums. -/
theorem sum_runTestTotal (l : List EvalRunResult) :
    (l.map runTestTotal).sum =
      ((l.filter isCompletedRun).map
        (fun r => (r.test_results.map (fun t => t.total)).getD 0)).sum := by
  induction l with
  | nil => rfl
  | cons r rest ih =>
    rcases hc : isCompletedRun r <;>
      simp [runTestTotal, hc, List.filter_cons, ih]

/-- The per-run passed totals sum to the claimed Completed-runs-only sums. -/
theorem sum_runTestPassed (l : List EvalRunResult) :
    (l.map runTestPassed).sum =
      ((l.filter isCompletedRun).map
        (fun r => (r.test_results.map (fun t => t.passed)).getD 0)).sum := by
  induction l with
  | nil => rfl
  | cons r rest ih =>
    rcases hc : isCompletedRun r <;>
      simp [runTestPassed, hc, List.filter_cons, ih]

/-- Facts about the group value accumulated from a nonempty run list whose
runs all belong to agent `a`. -/
theorem extendScore_none_facts (l : List EvalRunResult) (a : List Char)
    (hne : l ≠ []) (hall : ∀ r ∈ l, r.agent_id = a) (v : AgentScore)
    (hv : extendScore none l = some v) :
    v.agent_id = a ∧ v.rank = 0 ∧ v.average_score = 0 ∧
    v.total_runs = l.length ∧
    v.failed_runs = (l.filter isFailRun).length ∧
    v.total_tests = ((l.filter isCompletedRun).map
      (fun r => (r.test_results.map (fun t => t.total)).getD 0)).sum ∧
    v.passed_tests = ((l.filter isCompletedRun).map
      (fun r => (r.test_results.map (fun t => t.passed)).getD 0)).sum := by
  rcases l with _ | ⟨r0, rest⟩
  · exact absurd rfl hne
  · have hstep : extendScore none (r0 :: rest) =
        extendScore (some (accumRun r0 (emptyAgentScore r0))) rest := rfl
    rw [hstep, extendScore_some] at hv
    have hfold : foldAccum (accumRun r0 (emptyAgentScore r0)) rest =
        foldAccum (emptyAgentScore r0) (r0 :: rest) := rfl
    rw [hfold] at hv
    obtain rfl : v = foldAccum (emptyAgentScore r0) (r0 :: rest) :=
      (Option.some.injEq _ _ ▸ hv).symm
    have hpres := foldAccum_preserved (r0 :: rest) (emptyAgentScore r0)
    refine ⟨?_, ?_, ?_, ?_, ?_, ?_, ?_⟩
    · rw [hpres.1]
      exact hall r0 (List.mem_cons_self r0 rest)
    · exact hpres.2.2.2.2
    · exact hpres.2.2.2.1
    · rw [foldAccum_total_runs]
      simp [emptyAgentScore]
    · rw [foldAccum_failed_runs, List.countP_eq_length_filter]
      simp [emptyAgentScore]
    · rw [foldAccum_total_tests, sum_runTestTotal]
      simp [emptyAgentScore]
    · rw [foldAccum_passed_tests, sum_runTestPassed]
      simp [emptyAgentScore]

/-- Keys produced by `mapInsert` are the inserted run's key or existing
keys. -/
theorem mapInsert_key_mem (run : EvalRunResult) :
    ∀ m : List (List Char × AgentScore), ∀ q ∈ mapInsert run m,
      q.1 = run.agent_id ∨ q.1 ∈ m.map Prod.fst := by
  intro m
  induction m with
  | nil =>
    intro q hq
    rcases List.mem_singleton.mp hq with rfl
    exact Or.inl rfl
  | cons p rest ih =>
    obtain ⟨k, v⟩ := p
    intro q hq
    by_cases he : run.agent_id = k
    · simp only [mapInsert, if_pos he] at hq
      rcases List.mem_cons.mp hq with hq1 | hq'
      · rw [hq1]
        exact Or.inr (List.mem_map.mpr ⟨(k, v), List.mem_cons_self _ _, rfl⟩)
      · exact Or.inr (List.mem_map.mpr ⟨q, List.mem_cons_of_mem _ hq', rfl⟩)
    · by_cases hlt : run.agent_id < k
      · simp only [mapInsert, if_neg he, if_pos hlt] at hq
        rcases List.mem_cons.mp hq with hq1 | hq'
        · rw [hq1]
          exact Or.inl rfl
        · rcases List.mem_cons.mp hq' with hq2 | hq2
          · rw [hq2]
            exact Or.inr (List.mem_map.mpr ⟨(k, v), List.mem_cons_self _ _, rfl⟩)
          · exact Or.inr (List.mem_map.mpr ⟨q, List.mem_cons_of_mem _ hq2, rfl⟩)
      · simp only [mapInsert, if_neg he, if_neg hlt] at hq
        rcases List.mem_cons.mp hq with hq1 | hq'
        · rw [hq1]
          exact Or.inr (List.mem_map.mpr ⟨(k, v), List.mem_cons_self _ _, rfl⟩)
        · rcases ih q hq' with h1 | h1
          · exact Or.inl h1
          · refine Or.inr ?_
            rw [List.map_cons]
            exact List.mem_cons_of_mem _ h1

/-- `mapInsert` preserves the ascending-key invariant. -/
theorem mapInsert_keysSorted (run : EvalRunResult) :
    ∀ m : List (List Char × AgentScore), keysSorted m →
      keysSorted (mapInsert run m) := by
  intro m
  induction m with
  | nil =>
    intro _
    simp [mapInsert, keysSorted]
  | cons p rest ih =>
    obtain ⟨k, v⟩ := p
    intro h
    have hhead := (List.pairwise_cons.mp h).1
    have htail := (List.pairwise_cons.mp h).2
    by_cases he : run.agent_id = k
    · simp only [mapInsert, if_pos he]
      exact List.pairwise_cons.mpr ⟨fun q hq => hhead q hq, htail⟩
    · by_cases hlt : run.agent_id < k
      · simp only [mapInsert, if_neg he, if_pos hlt]
        refine List.pairwise_cons.mpr
          ⟨?_, List.pairwise_cons.mpr ⟨hhead, htail⟩⟩
        intro q hq
        rcases List.mem_cons.mp hq with rfl | hq'
        · exact hlt
        · exact lt_trans hlt (hhead q hq')
      · have hgt : k < run.agent_id := by
          rcases lt_trichotomy run.agent_id k with h1 | h1 | h1
          · exact absurd h1 hlt
          · exact absurd h1 he
          · exact h1
        simp only [mapInsert, if_neg he, if_neg hlt]
        refine List.pairwise_cons.mpr ⟨?_, ih htail⟩
        intro q hq
        rcases mapInsert_key_mem run rest q hq with h1 | h1
        · rw [h1]; exact hgt
        · rcases List.mem_map.mp h1 with ⟨p1, hp1, hpe⟩
          rw [← hpe]
          exact hhead p1 hp1

/-- Lookup misses when the key differs from every stored key. -/
theorem alookup_eq_none (a : List Char) :
    ∀ m : List (List Char × AgentScore), (∀ q ∈ m, a ≠ q.1) →
      alookup a m = none := by
  intro m
  induction m with
  | nil => intro _; rfl
  | cons p rest ih =>
    obtain ⟨k, v⟩ := p
    intro h
    have hk : a ≠ k := h (k, v) (List.mem_cons_self _ _)
    simp only [alookup, if_neg hk]
    exact ih (fun q hq => h q (List.mem_cons_of_mem _ hq))

/-- How `mapInsert` changes lookups on a sorted map: the inserted run's
key now maps to the accumulated entry, every other key is untouched. -/
theorem alookup_mapInsert (run : EvalRunResult) :
    ∀ m : List (List Char × AgentScore), keysSorted m → ∀ a : List Char,
    alookup a (mapInsert run m) =
      if a = run.agent_id then
        some (accumRun run ((alookup a m).getD (emptyAgentScore run)))
      else alookup a m := by
  intro m
  induction m with
  | nil =>
    intro _ a
    by_cases ha : a = run.agent_id <;> simp [mapInsert, alookup, ha]
  | cons p rest ih =>
    obtain ⟨k, v⟩ := p
    intro h a
    have hhead := (List.pairwise_cons.mp h).1
    have htail := (List.pairwise_cons.mp h).2
    by_cases he : run.agent_id = k
    · simp only [mapInsert, if_pos he]
      by_cases ha : a = run.agent_id
      · have hak : a = k := ha.trans he
        simp [alookup, hak, ha, he]
      · have hak : a ≠ k := fun e => ha (e.trans he.symm)
        simp [alookup, hak, ha]
    · by_cases hlt : run.agent_id < k
      · simp only [mapInsert, if_neg he, if_pos hlt]
        by_cases ha : a = run.agent_id
        · have hnone : alookup a ((k, v) :: rest) = none := by
            apply alookup_eq_none
            intro q hq
            rcases List.mem_cons.mp hq with hq1 | hq'
            · rw [hq1, ha]
              exact ne_of_lt hlt
            · rw [ha]
              exact ne_of_lt (lt_trans hlt (hhead q hq'))
          rw [ha] at hnone
          simp only [alookup, if_neg he] at hnone
          simp [alookup, ha, he, hnone]
        · simp [alookup, ha]
      · have hgt : k < run.agent_id := by
          rcases lt_trichotomy run.agent_id k with h1 | h1 | h1
          · exact absurd h1 hlt
          · exact absurd h1 he
          · exact h1
        simp only [mapInsert, if_neg he, if_neg hlt]
        by_cases hak : a = k
        · subst hak
          have har : a ≠ run.agent_id := ne_of_lt hgt
          simp [alookup, har]
        · simp only [alookup, if_neg hak]
          rw [ih htail a]

/-- One step of `runsOf` along the run list. -/
theorem runsOf_cons (r : EvalRunResult) (rest : List EvalRunResult)
    (a : List Char) :
    runsOf (r :: rest) a =
      if r.agent_id == a then r :: runsOf rest a else runsOf rest a := by
  simp [runsOf, List.filter_cons]

/-- The grouping fold keeps the map sorted. -/
theorem foldl_mapInsert_sorted (runs : List EvalRunResult) :
    ∀ m : List (List Char × AgentScore), keysSorted m →
      keysSorted (runs.foldl (fun m r => mapInsert r m) m) := by
  induction runs with
  | nil => intro m h; exact h
  | cons r rest ih =>
    intro m h
    exact ih (mapInsert r m) (mapInsert_keysSorted r m h)

/-- The grouping fold accumulates, per key, exactly that agent's runs. -/
theorem foldl_mapInsert_alookup (runs : List EvalRunResult) :
    ∀ m : List (List Char × AgentScore), keysSorted m → ∀ a : List Char,
      alookup a (runs.foldl (fun m r => mapInsert r m) m) =
        extendScore (alookup a m) (runsOf runs a) := by
  induction runs with
  | nil => intro m _ a; rfl
  | cons r rest ih =>
    intro m hm a
    show alookup a (rest.foldl (fun m r => mapInsert r m) (mapInsert r m)) = _
    rw [ih (mapInsert r m) (mapInsert_keysSorted r m hm) a,
        alookup_mapInsert r m hm a, runsOf_cons]
    by_cases ha : r.agent_id = a
    · have hbeq : (r.agent_id == a) = true := beq_iff_eq.mpr ha
      have ha2 : a = r.agent_id := ha.symm
      simp only [hbeq, if_true, if_pos ha2]
      rfl
    · have hbeq : (r.agent_id == a) = false := by
        simp [ha]
      have ha2 : a ≠ r.agent_id := fun e => ha e.symm
      simp [hbeq, ha2]

/-- The `BTreeMap` model is sorted by key. -/
theorem agentMap_sorted (runs : List EvalRunResult) :
    keysSorted (agentMap runs) :=
  foldl_mapInsert_sorted runs [] List.Pairwise.nil

/-- Each key of the grouping map holds its agent's accumulated group. -/
theorem agentMap_alookup (runs : List EvalRunResult) (a : List Char) :
    alookup a (agentMap runs) = extendScore none (runsOf runs a) :=
  foldl_mapInsert_alookup runs [] List.Pairwise.nil a

/-- On a sorted map, membership determines the lookup. -/
theorem alookup_of_mem :
    ∀ m : List (List Char × AgentScore), keysSorted m →
    ∀ k : List Char, ∀ v : AgentScore, (k, v) ∈ m → alookup k m = some v := by
  intro m
  induction m with
  | nil => intro _ k v hm; cases hm
  | cons p rest ih =>
    obtain ⟨k0, v0⟩ := p
    intro h k v hm
    rcases List.mem_cons.mp hm with heq | hmem
    · injection heq with h1 h2
      subst h1
      subst h2
      simp [alookup]
    · have hk : k0 < k := by
        have := (List.pairwise_cons.mp h).1 (k, v) hmem
        simpa using this
      have hne : k ≠ k0 := fun e => absurd (e ▸ hk) (lt_irrefl k)
      simp only [alookup, if_neg hne]
      exact ih (List.pairwise_cons.mp h).2 k v hmem

/-- A lookup hits exactly the stored keys. -/
theorem alookup_isSome_iff (a : List Char) :
    ∀ m : List (List Char × AgentScore),
      ((alookup a m).isSome = true ↔ a ∈ m.map Prod.fst) := by
  intro m
  induction m with
  | nil => simp [alookup]
  | cons p rest ih =>
    obtain ⟨k, v⟩ := p
    by_cases ha : a = k
    · simp [alookup, ha]
    · simp [alookup, ha, ih]

/-- A group value exists exactly for nonempty run groups. -/
theorem extendScore_none_isSome (l : List EvalRunResult) :
    ((extendScore none l).isSome = true ↔ l ≠ []) := by
  cases l with
  | nil => simp [extendScore]
  | cons r rest =>
    have : extendScore none (r :: rest) =
        extendScore (some (accumRun r (emptyAgentScore r))) rest := rfl
    rw [this, extendScore_some]
    simp

/-- An agent has runs exactly when its id appears among the runs. -/
theorem runsOf_ne_nil_iff (runs : List EvalRunResult) (a : List Char) :
    runsOf runs a ≠ [] ↔ a ∈ runs.map (fun r => r.agent_id) := by
  constructor
  · intro h
    rcases hlist : runsOf runs a with _ | ⟨r, rest⟩
    · exact absurd hlist h
    · have hr : r ∈ runsOf runs a := by rw [hlist]; exact List.mem_cons_self _ _
      have hmem := List.mem_of_mem_filter hr
      have hpred := List.of_mem_filter hr
      exact List.mem_map.mpr ⟨r, hmem, beq_iff_eq.mp hpred⟩
  · intro h hnil
    rcases List.mem_map.mp h with ⟨r, hr, hre⟩
    have : r ∈ runsOf runs a :=
      List.mem_filter.mpr ⟨hr, beq_iff_eq.mpr hre⟩
    rw [hnil] at this
    cases this

/-- Every entry of the grouping map carries its agent's accumulated
counts. -/
theorem agentMap_mem_facts (runs : List EvalRunResult) :
    ∀ p ∈ agentMap runs,
      p.2.agent_id = p.1 ∧ p.2.rank = 0 ∧ p.2.average_score = 0 ∧
      p.2.total_runs = (runsOf runs p.1).length ∧
      p.2.failed_runs = ((runsOf runs p.1).filter isFailRun).length ∧
      p.2.total_tests = (((runsOf runs p.1).filter isCompletedRun).map
        (fun r => (r.test_results.map (fun t => t.total)).getD 0)).sum ∧
      p.2.passed_tests = (((runsOf runs p.1).filter isCompletedRun).map
        (fun r => (r.test_results.map (fun t => t.passed)).getD 0)).sum := by
  intro p hp
  obtain ⟨k, v⟩ := p
  have hlk : alookup k (agentMap runs) = some v :=
    alookup_of_mem _ (agentMap_sorted runs) k v hp
  rw [agentMap_alookup] at hlk
  have hne : runsOf runs k ≠ [] := by
    intro hnil
    rw [hnil] at hlk
    cases hlk
  have hall : ∀ r ∈ runsOf runs k, r.agent_id = k := by
    intro r hr
    have hr2 : r ∈ runs.filter (fun r => r.agent_id == k) := hr
    exact beq_iff_eq.mp (List.mem_filter.mp hr2).2
  exact extendScore_none_facts (runsOf runs k) k hne hall v hlk

/-- `setAverage` only touches `average_score`. -/
theorem setAverage_preserved (s : AgentScore) :
    (setAverage s).agent_id = s.agent_id ∧
    (setAverage s).agent_tool = s.agent_tool ∧
    (setAverage s).model = s.model ∧
    (setAverage s).rank = s.rank ∧
    (setAverage s).total_runs = s.total_runs ∧
    (setAverage s).completed_runs = s.completed_runs ∧
    (setAverage s).failed_runs = s.failed_runs ∧
    (setAverage s).total_tests = s.total_tests ∧
    (setAverage s).passed_tests = s.passed_tests := by
  unfold setAverage
  split <;> simp

/-- On a group whose accumulated average is still `0`, `setAverage`
establishes the claimed average formula. -/
theorem setAverage_average (s : AgentScore) (h0 : s.average_score = 0) :
    (setAverage s).average_score =
      (if (setAverage s).total_tests = 0 then 0
       else (((setAverage s).passed_tests : ℚ) /
         ((setAverage s).total_tests : ℚ)) * 100) := by
  have hp := setAverage_preserved s
  rw [hp.2.2.2.2.2.2.2.1, hp.2.2.2.2.2.2.2.2]
  unfold setAverage
  split
  · rename_i h
    have hne : s.total_tests ≠ 0 := Nat.pos_iff_ne_zero.mp h
    simp [hne]
  · rename_i h
    have hz : s.total_tests = 0 := by omega
    simp [hz, h0]

/-- The grouped, averaged score list satisfies the per-agent claim. -/
theorem groupScores_facts (runs : List EvalRunResult) :
    ∀ s ∈ ((agentMap runs).map Prod.snd).map setAverage,
      groupFacts runs s ∧ s.rank = 0 := by
  intro s hs
  rcases List.mem_map.mp hs with ⟨u, hu, rfl⟩
  rcases List.mem_map.mp hu with ⟨p, hp, rfl⟩
  have hf := agentMap_mem_facts runs p hp
  have hpres := setAverage_preserved p.2
  have hid : (setAverage p.2).agent_id = p.1 := hpres.1.trans hf.1
  refine ⟨⟨?_, ?_, ?_, ?_, ?_⟩, hpres.2.2.2.1.trans hf.2.1⟩
  · rw [hid, hpres.2.2.2.2.1, hf.2.2.2.1]
  · rw [hid, hpres.2.2.2.2.2.2.1, hf.2.2.2.2.1]
  · rw [hid, hpres.2.2.2.2.2.2.2.1, hf.2.2.2.2.2.1]
  · rw [hid, hpres.2.2.2.2.2.2.2.2, hf.2.2.2.2.2.2]
  · exact setAverage_average p.2 hf.2.2.1

/-- The grouped, averaged score list is in strictly ascending
`agent_id` order (the `BTreeMap` iteration order). -/
theorem groupScores_id_pairwise (runs : List EvalRunResult) :
    (((agentMap runs).map Prod.snd).map setAverage).Pairwise
      (fun a b => a.agent_id < b.agent_id) := by
  have hs := agentMap_sorted runs
  rw [List.pairwise_map, List.pairwise_map]
  refine List.Pairwise.imp_of_mem ?_ hs
  intro p q hp hq hlt
  rw [(setAverage_preserved p.2).1, (setAverage_preserved q.2).1,
      (agentMap_mem_facts runs p hp).1, (agentMap_mem_facts runs q hq).1]
  exact hlt

/-- Insertion keeps the list a permutation. -/
theorem insertDesc_perm (x : AgentScore) (l : List AgentScore) :
    List.Perm (insertDesc x l) (x :: l) := by
  induction l with
  | nil => exact List.Perm.refl _
  | cons y ys ih =>
    unfold insertDesc
    split
    · exact List.Perm.refl _
    · exact List.Perm.trans (List.Perm.cons y ih) (List.Perm.swap x y ys)

/-- The sort is a permutation. -/
theorem sortScoresDesc_perm (l : List AgentScore) :
    List.Perm (sortScoresDesc l) l := by
  induction l with
  | nil => exact List.Perm.refl _
  | cons x xs ih =>
    show List.Perm (insertDesc x (sortScoresDesc xs)) (x :: xs)
    exact List.Perm.trans (insertDesc_perm x (sortScoresDesc xs))
      (List.Perm.cons x ih)

/-- Inserting an element whose id precedes every element of an ordered
list preserves the descending-with-ascending-tie order. -/
theorem insertDesc_pairwise (x : AgentScore) (l : List AgentScore)
    (hl : l.Pairwise scoreOrdered)
    (hx : ∀ y ∈ l, x.agent_id < y.agent_id) :
    (insertDesc x l).Pairwise scoreOrdered := by
  induction l with
  | nil => simp [insertDesc]
  | cons y ys ih =>
    have hhead := (List.pairwise_cons.mp hl).1
    have htail := (List.pairwise_cons.mp hl).2
    unfold insertDesc
    split
    · rename_i hc
      refine List.pairwise_cons.mpr ⟨?_, hl⟩
      intro z hz
      rcases List.mem_cons.mp hz with hz1 | hz'
      · subst hz1
        exact ⟨hc, fun _ => hx z (List.mem_cons_self _ _)⟩
      · have hyz := hhead z hz'
        exact ⟨le_trans hyz.1 hc, fun _ => hx z (List.mem_cons_of_mem _ hz')⟩
    · rename_i hc
      push_neg at hc
      refine List.pairwise_cons.mpr
        ⟨?_, ih htail (fun z hz => hx z (List.mem_cons_of_mem _ hz))⟩
      intro z hz
      have hz2 : z = x ∨ z ∈ ys := by
        rcases List.mem_cons.mp ((insertDesc_perm x ys).mem_iff.mp hz) with
          h1 | h1
        · exact Or.inl h1
        · exact Or.inr h1
      rcases hz2 with hz1 | hz'
      · subst hz1
        exact ⟨le_of_lt hc, fun he => absurd he.symm (ne_of_lt hc)⟩
      · exact hhead z hz'

/-- Sorting an ascending-id list yields the descending-score order with
ties in ascending id order (stability). -/
theorem sortScoresDesc_pairwise (l : List AgentScore)
    (h : l.Pairwise (fun a b => a.agent_id < b.agent_id)) :
    (sortScoresDesc l).Pairwise scoreOrdered := by
  induction l with
  | nil => exact List.Pairwise.nil
  | cons x xs ih =>
    have hhead := (List.pairwise_cons.mp h).1
    have htail := (List.pairwise_cons.mp h).2
    show (insertDesc x (sortScoresDesc xs)).Pairwise scoreOrdered
    refine insertDesc_pairwise x (sortScoresDesc xs) (ih htail) ?_
    intro y hy
    exact hhead y ((sortScoresDesc_perm xs).mem_iff.mp hy)

/-- Rank assignment leaves everything but the rank unchanged. -/
theorem assignRanksFrom_map_stripRank (l : List AgentScore) :
    ∀ i, (assignRanksFrom i l).map stripRank = l.map stripRank := by
  induction l with
  | nil => intro i; rfl
  | cons s rest ih =>
    intro i
    show stripRank { s with rank := i + 1 } ::
      (assignRanksFrom (i + 1) rest).map stripRank = _
    rw [ih (i + 1)]
    rfl

/-- The assigned ranks are consecutive from `i + 1`. -/
theorem assignRanksFrom_ranks (l : List AgentScore) :
    ∀ i, (assignRanksFrom i l).map (fun s => s.rank) =
      List.range' (i + 1) l.length := by
  induction l with
  | nil => intro i; rfl
  | cons s rest ih =>
    intro i
    show (i + 1) :: (assignRanksFrom (i + 1) rest).map (fun s => s.rank) = _
    rw [ih (i + 1), List.length_cons, List.range'_succ]

/-- A pairwise relation blind to ranks transfers along rank-erasure
equality of lists. -/
theorem pairwise_transfer {R : AgentScore → AgentScore → Prop}
    (hR : ∀ a b, R (stripRank a) (stripRank b) ↔ R a b)
    (l₁ l₂ : List AgentScore) (h : l₁.map stripRank = l₂.map stripRank)
    (hp : l₂.Pairwise R) : l₁.Pairwise R := by
  have h2 : (l₂.map stripRank).Pairwise R := by
    rw [List.pairwise_map]
    exact hp.imp (fun hab => (hR _ _).mpr hab)
  rw [← h, List.pairwise_map] at h2
  exact h2.imp (fun hab => (hR _ _).mp hab)

/-- Members correspond up to rank along rank-erasure equality. -/
theorem mem_transfer (l₁ l₂ : List AgentScore)
    (h : l₁.map stripRank = l₂.map stripRank) :
    ∀ s ∈ l₁, ∃ t ∈ l₂, stripRank s = stripRank t := by
  intro s hs
  have hm : stripRank s ∈ l₂.map stripRank :=
    h ▸ List.mem_map_of_mem stripRank hs
  rcases List.mem_map.mp hm with ⟨t, ht, hte⟩
  exact ⟨t, ht, hte.symm⟩

/-- `scoreOrdered` does not read the rank. -/
theorem scoreOrdered_stripRank (a b : AgentScore) :
    scoreOrdered (stripRank a) (stripRank b) ↔ scoreOrdered a b :=
  Iff.rfl

/-- `groupFacts` does not read the rank. -/
theorem groupFacts_stripRank (runs : List EvalRunResult) (s t : AgentScore)
    (h : stripRank s = stripRank t) (hg : groupFacts runs t) :
    groupFacts runs s := by
  have hid : s.agent_id = t.agent_id := by
    have := congrArg AgentScore.agent_id h
    simpa [stripRank] using this
  have h1 : s.total_runs = t.total_runs := by
    have := congrArg AgentScore.total_runs h
    simpa [stripRank] using this
  have h2 : s.failed_runs = t.failed_runs := by
    have := congrArg AgentScore.failed_runs h
    simpa [stripRank] using this
  have h3 : s.total_tests = t.total_tests := by
    have := congrArg AgentScore.total_tests h
    simpa [stripRank] using this
  have h4 : s.passed_tests = t.passed_tests := by
    have := congrArg AgentScore.passed_tests h
    simpa [stripRank] using this
  have h5 : s.average_score = t.average_score := by
    have := congrArg AgentScore.average_score h
    simpa [stripRank] using this
  unfold groupFacts at hg ⊢
  rw [hid, h1, h2, h3, h4, h5]
  exact hg

/-- Rank assignment preserves the id sequence. -/
theorem assignRanksFrom_map_agent_id (l : List AgentScore) :
    ∀ i, (assignRanksFrom i l).map (fun s => s.agent_id) =
      l.map (fun s => s.agent_id) := by
  induction l with
  | nil => intro i; rfl
  | cons s rest ih =>
    intro i
    show s.agent_id :: (assignRanksFrom (i + 1) rest).map (fun s => s.agent_id)
      = _
    rw [ih (i + 1)]
    rfl

/-- Every member of the final ranked score list satisfies the per-agent
grouping facts. -/
theorem finalScores_facts (runs : List EvalRunResult) :
    ∀ s ∈ assignRanksFrom 0 (sortScoresDesc
      (((agentMap runs).map Prod.snd).map setAverage)), groupFacts runs s := by
  intro s hs
  rcases mem_transfer _ _
    (assignRanksFrom_map_stripRank
      (sortScoresDesc (((agentMap runs).map Prod.snd).map setAverage)) 0)
    s hs with ⟨t, ht, hst⟩
  have ht1 : t ∈ ((agentMap runs).map Prod.snd).map setAverage :=
    (sortScoresDesc_perm _).mem_iff.mp ht
  exact groupFacts_stripRank runs s t hst (groupScores_facts runs t ht1).1

/-- The final ranked score list is in descending-score order with ties in
ascending id order. -/
theorem finalScores_pairwise (runs : List EvalRunResult) :
    (assignRanksFrom 0 (sortScoresDesc
      (((agentMap runs).map Prod.snd).map setAverage))).Pairwise
        scoreOrdered := by
  have hQ : (sortScoresDesc
      (((agentMap runs).map Prod.snd).map setAverage)).Pairwise scoreOrdered :=
    sortScoresDesc_pairwise _ (groupScores_id_pairwise runs)
  exact pairwise_transfer scoreOrdered_stripRank _ _
    (assignRanksFrom_map_stripRank _ 0) hQ

/-- The final list's ranks are exactly `1, 2, …, n` in order. -/
theorem finalScores_ranks (runs : List EvalRunResult) :
    (assignRanksFrom 0 (sortScoresDesc
      (((agentMap runs).map Prod.snd).map setAverage))).map (fun s => s.rank)
    = List.range' 1 (assignRanksFrom 0 (sortScoresDesc
      (((agentMap runs).map Prod.snd).map setAverage))).length := by
  have hlen : (assignRanksFrom 0 (sortScoresDesc
      (((agentMap runs).map Prod.snd).map setAverage))).length =
      (sortScoresDesc (((agentMap runs).map Prod.snd).map setAverage)).length
      := by
    have := congrArg List.length (assignRanksFrom_map_stripRank
      (sortScoresDesc (((agentMap runs).map Prod.snd).map setAverage)) 0)
    simpa using this
  rw [hlen]
  exact assignRanksFrom_ranks _ 0

/-- The final list's ids: duplicate-free, exactly the ids occurring among
the runs, and as many as the distinct run ids. -/
theorem finalScores_ids (runs : List EvalRunResult) :
    ((assignRanksFrom 0 (sortScoresDesc
      (((agentMap runs).map Prod.snd).map setAverage))).map
        (fun s => s.agent_id)).Nodup ∧
    (∀ a, a ∈ (assignRanksFrom 0 (sortScoresDesc
      (((agentMap runs).map Prod.snd).map setAverage))).map
        (fun s => s.agent_id) ↔ a ∈ runs.map (fun r => r.agent_id)) ∧
    (assignRanksFrom 0 (sortScoresDesc
      (((agentMap runs).map Prod.snd).map setAverage))).length =
      (runs.map (fun r => r.agent_id)).dedup.length := by
  have hmapeq : (assignRanksFrom 0 (sortScoresDesc
      (((agentMap runs).map Prod.snd).map setAverage))).map
        (fun s => s.agent_id) =
      (sortScoresDesc (((agentMap runs).map Prod.snd).map setAverage)).map
        (fun s => s.agent_id) :=
    assignRanksFrom_map_agent_id _ 0
  have hperm : List.Perm
      ((sortScoresDesc (((agentMap runs).map Prod.snd).map setAverage)).map
        (fun s => s.agent_id))
      ((((agentMap runs).map Prod.snd).map setAverage).map
        (fun s => s.agent_id)) :=
    (sortScoresDesc_perm _).map _
  have hS1ids : (((agentMap runs).map Prod.snd).map setAverage).map
      (fun s => s.agent_id) = (agentMap runs).map Prod.fst := by
    rw [List.map_map, List.map_map]
    refine List.map_congr_left ?_
    intro p hp
    show (setAverage p.2).agent_id = p.1
    rw [(setAverage_preserved p.2).1, (agentMap_mem_facts runs p hp).1]
  have hS1nodup : ((((agentMap runs).map Prod.snd).map setAverage).map
      (fun s => s.agent_id)).Nodup := by
    have hpw : (((agentMap runs).map Prod.snd).map setAverage).Pairwise
        (fun a b => a.agent_id < b.agent_id) := groupScores_id_pairwise runs
    have : ((((agentMap runs).map Prod.snd).map setAverage).map
        (fun s => s.agent_id)).Pairwise (fun a b => a < b) :=
      List.pairwise_map.mpr hpw
    exact this.imp (fun hab => ne_of_lt hab)
  have hmem : ∀ a, (a ∈ (((agentMap runs).map Prod.snd).map setAverage).map
      (fun s => s.agent_id) ↔ a ∈ runs.map (fun r => r.agent_id)) := by
    intro a
    rw [hS1ids]
    rw [← alookup_isSome_iff a (agentMap runs), agentMap_alookup,
        extendScore_none_isSome]
    exact runsOf_ne_nil_iff runs a
  have hfinmem : ∀ a, (a ∈ (assignRanksFrom 0 (sortScoresDesc
      (((agentMap runs).map Prod.snd).map setAverage))).map
        (fun s => s.agent_id) ↔ a ∈ runs.map (fun r => r.agent_id)) := by
    intro a
    rw [hmapeq, hperm.mem_iff]
    exact hmem a
  have hfinnodup : ((assignRanksFrom 0 (sortScoresDesc
      (((agentMap runs).map Prod.snd).map setAverage))).map
        (fun s => s.agent_id)).Nodup := by
    rw [hmapeq]
    exact (hperm.nodup_iff).mpr hS1nodup
  refine ⟨hfinnodup, hfinmem, ?_⟩
  have hlen1 : (assignRanksFrom 0 (sortScoresDesc
      (((agentMap runs).map Prod.snd).map setAverage))).length =
      ((assignRanksFrom 0 (sortScoresDesc
      (((agentMap runs).map Prod.snd).map setAverage))).map
        (fun s => s.agent_id)).length := (List.length_map _ _).symm
  have htfin : ((assignRanksFrom 0 (sortScoresDesc
      (((agentMap runs).map Prod.snd).map setAverage))).map
        (fun s => s.agent_id)).toFinset =
      (runs.map (fun r => r.agent_id)).toFinset := by
    apply Finset.ext
    intro a
    rw [List.mem_toFinset, List.mem_toFinset]
    exact hfinmem a
  rw [hlen1, ← List.toFinset_card_of_nodup hfinnodup, htfin,
      List.card_toFinset]

/-! ## Claim theorems: C1, C10 -/

/-- C1: after `calculate_scores`, runs are grouped by `agent_id` — each
group's `total_runs` counts all its runs, its `failed_runs` counts its
`Failed`/`Timeout` runs, its test sums cover `Completed` runs only, and
its `average_score` is `passed/total*100` with a zero guard; the score
list is sorted descending by `average_score` with ranks exactly
`1, 2, …, n` in order, one entry per distinct `agent_id`; and the summary
derives `best_agent`/`worst_agent` from the ends of that sorted list and
its test totals as sums over the agent scores. -/
theorem calculate_scores_spec (res : EvaluationResults) :
    (∀ s ∈ (calculate_scores res).agent_scores, groupFacts res.runs s) ∧
    (calculate_scores res).agent_scores.Pairwise
      (fun a b => b.average_score ≤ a.average_score) ∧
    (calculate_scores res).agent_scores.map (fun s => s.rank) =
      List.range' 1 (calculate_scores res).agent_scores.length ∧
    ((calculate_scores res).agent_scores.map (fun s => s.agent_id)).Nodup ∧
    (∀ a, a ∈ (calculate_scores res).agent_scores.map (fun s => s.agent_id) ↔
      a ∈ res.runs.map (fun r => r.agent_id)) ∧
    (calculate_scores res).agent_scores.length =
      (res.runs.map (fun r => r.agent_id)).dedup.length ∧
    (calculate_scores res).summary.best_agent =
      (calculate_scores res).agent_scores.head?.map (fun s => s.agent_id) ∧
    (calculate_scores res).summary.worst_agent =
      (calculate_scores res).agent_scores.getLast?.map (fun s => s.agent_id) ∧
    (calculate_scores res).summary.total_tests =
      ((calculate_scores res).agent_scores.map (fun s => s.total_tests)).sum ∧
    (calculate_scores res).summary.passed_tests =
      ((calculate_scores res).agent_scores.map (fun s => s.passed_tests)).sum
    := by
  have hids := finalScores_ids res.runs
  exact ⟨finalScores_facts res.runs,
         (finalScores_pairwise res.runs).imp (fun hab => hab.1),
         finalScores_ranks res.runs,
         hids.1, hids.2.1, hids.2.2,
         rfl, rfl, rfl, rfl⟩

/-- Witness for C1: the grouping facts of the theorem evaluated at a
concrete three-run, two-agent input. -/
theorem calculate_scores_spec_witness :
    groupFacts mixedResults.runs
      (((calculate_scores mixedResults).agent_scores).getD 0 default) :=
  (calculate_scores_spec mixedResults).1 _ (by decide)

/-- C10: agents with equal `average_score` appear in ascending
lexicographic `agent_id` order: the groups are accumulated in ascending
key order (`BTreeMap`) and the descending sort is stable, so the ranking
is a deterministic function of the run list. -/
theorem calculate_scores_tie_order (res : EvaluationResults) :
    ∀ i j (hi : i < (calculate_scores res).agent_scores.length)
      (hj : j < (calculate_scores res).agent_scores.length),
      i < j →
      ((calculate_scores res).agent_scores[i]).average_score =
        ((calculate_scores res).agent_scores[j]).average_score →
      ((calculate_scores res).agent_scores[i]).agent_id <
        ((calculate_scores res).agent_scores[j]).agent_id := by
  intro i j hi hj hij heq
  have hpw : (calculate_scores res).agent_scores.Pairwise scoreOrdered :=
    finalScores_pairwise res.runs
  have h := List.pairwise_iff_getElem.mp hpw i j hi hj hij
  exact h.2 heq

/-- Witness for C10: two tied zero-test agents inserted in descending id
order come out in ascending id order. -/
theorem calculate_scores_tie_order_witness :
    ((calculate_scores tieResults).agent_scores.getD 0 default).agent_id <
    ((calculate_scores tieResults).agent_scores.getD 1 default).agent_id := by
  have h2 : 1 < (calculate_scores tieResults).agent_scores.length := by decide
  have h1 : 0 < (calculate_scores tieResults).agent_scores.length := by omega
  have hg0 : (calculate_scores tieResults).agent_scores.getD 0 default =
      (calculate_scores tieResults).agent_scores[0] := by
    rw [List.getD_eq_getElem?_getD, List.getElem?_eq_getElem h1]
    rfl
  have hg1 : (calculate_scores tieResults).agent_scores.getD 1 default =
      (calculate_scores tieResults).agent_scores[1] := by
    rw [List.getD_eq_getElem?_getD, List.getElem?_eq_getElem h2]
    rfl
  have heq2 : ((calculate_scores tieResults).agent_scores[0]).average_score =
      ((calculate_scores tieResults).agent_scores[1]).average_score := by
    rw [← hg0, ← hg1]
    decide
  have h := calculate_scores_tie_order tieResults 0 1 h1 h2 (by omega) heq2
  rw [hg0, hg1]
  exact h

end AnodeEvals
